import Mathlib

/-!
Verification of the tariff extraction and matrix normalization engine
(`main.py`, `create_table.py`, `fill_service_types.py`).

Shallow embedding conventions:
* Python dicts that preserve insertion order are modelled as association
  lists with unique keys (`odSet` overwrites in place, keeping position).
* Python truthiness on extracted scalars ("" and 0 are falsy) is `Scalar.truthy`.
* Strings are treated over the ASCII fragment: the `List Char` helpers
  (`pstrip`, `pupper`, `plower`, `psplitWs`, `pstarts`, `preplace`, ...)
  implement the ASCII behaviour of Python's `strip`, `upper`, `lower`,
  `split()`, `startswith`, `replace`.
* Python float values (parsed numbers, similarity scores) are modelled as
  exact unnormalized fractions (`PyFloatVal`, an `Int` numerator over a
  `Nat` denominator) compared by cross-multiplication; `PyFloatVal.toRat`
  maps them to `Rat` for order reasoning.
* `difflib.SequenceMatcher.ratio` is modelled for the no-junk case that
  applies here (the candidate strings are far below difflib's 200-char
  autojunk threshold): recursive divide at the earliest longest matching
  block, ratio `2·M/(len a + len b)`.
-/

namespace Rates

/-! ### Python string primitives over `List Char`

Lean's built-in `String` operations are byte-position based; the embedding
uses character-list implementations of the Python primitives instead, so
that all definitions evaluate by kernel reduction.  They implement the
ASCII behaviour of the corresponding Python methods. -/

/-- ASCII whitespace as recognized by Python's `str.strip` / `str.split`. -/
def wsp (c : Char) : Bool :=
  c = ' ' || c = '\t' || c = '\n' || c = '\r' || c = '\x0b' || c = '\x0c'

/-- Python `str.strip()` on a character list. -/
def stripL (l : List Char) : List Char :=
  ((l.dropWhile wsp).reverse.dropWhile wsp).reverse

/-- Python `str.strip()`. -/
def pstrip (s : String) : String := ⟨stripL s.data⟩

/-- ASCII uppercase of one character (Python `str.upper` on ASCII). -/
def upChar (c : Char) : Char :=
  if 'a' ≤ c ∧ c ≤ 'z' then Char.ofNat (c.toNat - 32) else c

/-- ASCII lowercase of one character (Python `str.lower` on ASCII). -/
def lowChar (c : Char) : Char :=
  if 'A' ≤ c ∧ c ≤ 'Z' then Char.ofNat (c.toNat + 32) else c

/-- Python `str.upper()` (ASCII fragment). -/
def pupper (s : String) : String := ⟨s.data.map upChar⟩

/-- Python `str.lower()` (ASCII fragment). -/
def plower (s : String) : String := ⟨s.data.map lowChar⟩

/-- Python `a.startswith(b)`. -/
def pstarts (s pre : String) : Bool := pre.data.isPrefixOf s.data

/-- Python `a in b` (substring containment; the empty string is contained
in every string). -/
def pyIn (a b : String) : Bool :=
  (List.range (b.data.length + 1)).any (fun i => a.data.isPrefixOf (b.data.drop i))

/-- Python `s[n:]` (drop the first `n` characters). -/
def pdrop (s : String) (n : Nat) : String := ⟨s.data.drop n⟩

/-- `str.replace` on lists, left-to-right, non-overlapping, all
occurrences; the fuel argument is an upper bound on the remaining length
(the source only calls it with a non-empty pattern). -/
def replF (pat rep : List Char) : Nat → List Char → List Char
  | 0, l => l
  | _ + 1, [] => []
  | fuel + 1, c :: rest =>
      if pat ≠ [] && pat.isPrefixOf (c :: rest) then
        rep ++ replF pat rep fuel ((c :: rest).drop pat.length)
      else c :: replF pat rep fuel rest

/-- Python `s.replace(pat, rep)`. -/
def preplace (s pat rep : String) : String := ⟨replF pat.data rep.data s.data.length s.data⟩

/-- Python `s.split()` (split on whitespace runs, no empty parts). -/
def psplitWsAux : List Char → List Char → List String
  | [], acc => if acc = [] then [] else [⟨acc.reverse⟩]
  | c :: rest, acc =>
      if wsp c then
        if acc = [] then psplitWsAux rest []
        else ⟨acc.reverse⟩ :: psplitWsAux rest []
      else psplitWsAux rest (c :: acc)

/-- Python `s.split()`. -/
def psplitWs (s : String) : List String := psplitWsAux s.data []

/-- Python `s.endswith(t)`. -/
def pends (s t : String) : Bool := t.data.isSuffixOf s.data

/-- Characters of `l` before the first occurrence of `c`
(all of `l` if `c` does not occur): Python `s.split(c)[0]`. -/
def takeUntilChar (l : List Char) (c : Char) : List Char := l.takeWhile (· ≠ c)

/-- Python `s.strip(",")`: remove commas from both ends. -/
def stripCommas (l : List Char) : List Char :=
  ((l.dropWhile (· = ',')).reverse.dropWhile (· = ',')).reverse

/-- Split at the first occurrence of `sep` (Python `s.split(sep, 1)`),
returning `none` when `sep` does not occur. -/
def splitFirstAux (sep : List Char) : List Char → Option (List Char × List Char)
  | [] => none
  | c :: rest =>
      if sep.isPrefixOf (c :: rest) then some ([], (c :: rest).drop sep.length)
      else match splitFirstAux sep rest with
        | some (l, r) => some (c :: l, r)
        | none => none

/-- Insertion-ordered-dict assignment: overwrite the value of an existing
key in place, otherwise append the key at the end.  This is the semantics
of `d[k] = v` on a Python dict (modelled with unique keys). -/
def odSet {α β : Type} [DecidableEq α] : List (α × β) → α → β → List (α × β)
  | [], k, v => [(k, v)]
  | (k', v') :: rest, k, v =>
      if k = k' then (k, v) :: rest else (k', v') :: odSet rest k v

/-- `d.get(k)` on the association list: first binding wins (keys are unique). -/
def odGet {α β : Type} [DecidableEq α] (m : List (α × β)) (k : α) : Option β :=
  (m.find? (fun p => p.1 = k)).map Prod.snd

/-- A tagged field value from the document-understanding output.  Each
component is present iff the corresponding JSON key is present (with a
non-null payload). -/
structure TaggedField where
  valueString : Option String := none
  content : Option String := none
  valueNumber : Option Rat := none
  valueDate : Option String := none
deriving DecidableEq, Repr

/-- A plain scalar extracted from a tagged field: a text or a number. -/
inductive Scalar where
  | str (s : String)
  | num (q : Rat)
deriving DecidableEq, Repr

/-- Python truthiness of an extracted value: `None`, `""` and `0` are falsy. -/
def Scalar.truthyOpt : Option Scalar → Bool
  | none => false
  | some (.str s) => s ≠ ""
  | some (.num q) => q ≠ 0

/-- `extract_value` (main.py): try, in priority order, `valueString`,
`content`, `valueNumber`, `valueDate`; otherwise no value. -/
def extract_value : Option TaggedField → Option Scalar
  | none => none
  | some f =>
      (f.valueString.map Scalar.str) <|> (f.content.map Scalar.str) <|>
      (f.valueNumber.map Scalar.num) <|> (f.valueDate.map Scalar.str)

/-- One item of the `MainCosts` array: a discriminator (`type`) and the
row object, an ordered mapping from field names to tagged values. -/
structure MCItem where
  type : String
  valueObject : List (String × TaggedField)
deriving Repr

/-- One price row of a rate-card section (`main.py`). -/
structure PriceRow where
  weight : Scalar
  zone_prices : List (String × Scalar)
deriving DecidableEq, Repr

/-- One rate-card section as built by `process_main_costs` (`main.py`). -/
structure RateCard where
  service_type : Option Scalar
  cost_category : Option Scalar
  weight_unit : Option Scalar
  zone_headers : List (String × Scalar)
  pricing : List PriceRow
deriving DecidableEq, Repr

/-- Extract a field of the row object and test Python truthiness
(`extract_value(value_object.get(k))` used as a condition). -/
def extractOf (vo : List (String × TaggedField)) (k : String) : Option Scalar :=
  extract_value (odGet vo k)

/-- The zone fields of a row object whose extracted value is truthy,
in field order (`for key, value in value_object.items(): if key.startswith('Zone') ...`). -/
def truthyZones (vo : List (String × TaggedField)) : List (String × Scalar) :=
  vo.filterMap (fun p =>
    if pstarts p.1 "Zone" then
      match extract_value (some p.2) with
      | some v => if Scalar.truthyOpt (some v) then some (p.1, v) else none
      | none => none
    else none)

/-- Build the fresh `current_rate_card` from a header row. -/
def newRateCard (vo : List (String × TaggedField)) : RateCard :=
  { service_type := extractOf vo "RateName"
    cost_category := extractOf vo "CostName"
    weight_unit := extractOf vo "Weight"
    zone_headers := truthyZones vo
    pricing := [] }

/-- Flush the `current_rate_card` slot into the section list: the card is
appended only when its pricing is non-empty
(`if current_rate_card and current_rate_card.get('pricing')`). -/
def flushCards (cards : List RateCard) (cur : Option RateCard) : List RateCard :=
  match cur with
  | some rc => if rc.pricing ≠ [] then cards ++ [rc] else cards
  | none => cards

/-- Data-row handling of `process_main_costs`: extract "Weight"; if truthy,
build a price row from the truthy zone fields and append it only when it
has at least one zone price; otherwise leave the card untouched. -/
def dataStep (vo : List (String × TaggedField)) (rc : RateCard) : RateCard :=
  match extractOf vo "Weight" with
  | none => rc
  | some w =>
      if Scalar.truthyOpt (some w) then
        if truthyZones vo ≠ [] then
          { rc with pricing := rc.pricing ++ [{ weight := w, zone_prices := truthyZones vo }] }
        else rc
      else rc

/-- One step of the `process_main_costs` loop: takes the finished sections
and the `current_rate_card` slot, processes one array item. -/
def mcStep (st : List RateCard × Option RateCard) (item : MCItem) :
    List RateCard × Option RateCard :=
  if item.type ≠ "object" then st
  else if Scalar.truthyOpt (extractOf item.valueObject "RateName") ||
          Scalar.truthyOpt (extractOf item.valueObject "CostName") then
    -- header row: flush the current card if it has ≥ 1 price row
    (flushCards st.1 st.2, some (newRateCard item.valueObject))
  else
    -- data row (ignored when no current card exists)
    match st.2 with
    | none => st
    | some rc => (st.1, some (dataStep item.valueObject rc))

/-- `process_main_costs` (main.py): fold the items, then flush the last
card under the same non-empty-pricing rule. -/
def process_main_costs (items : List MCItem) : List RateCard :=
  let st := items.foldl mcStep ([], none)
  flushCards st.1 st.2

lemma flushCards_some (cards : List RateCard) (c : RateCard) :
    flushCards cards (some c) = if c.pricing ≠ [] then cards ++ [c] else cards := rfl

lemma flushCards_preserves (cards : List RateCard) (cur : Option RateCard)
    (h : ∀ rc ∈ cards, rc.pricing ≠ []) :
    ∀ rc ∈ flushCards cards cur, rc.pricing ≠ [] := by
  intro rc hrc
  rcases cur with _ | c
  · exact h rc hrc
  · rw [flushCards_some] at hrc
    split at hrc
    · rcases List.mem_append.mp hrc with hrc | hrc
      · exact h rc hrc
      · rw [List.mem_singleton.mp hrc]; assumption
    · exact h rc hrc

lemma mcStep_fst (st : List RateCard × Option RateCard) (item : MCItem) :
    (mcStep st item).1 = st.1 ∨ (mcStep st item).1 = flushCards st.1 st.2 := by
  unfold mcStep
  split
  · exact Or.inl rfl
  · split
    · exact Or.inr rfl
    · split
      · exact Or.inl rfl
      · exact Or.inl rfl

lemma mcStep_preserves (st : List RateCard × Option RateCard) (item : MCItem)
    (h : ∀ rc ∈ st.1, rc.pricing ≠ []) :
    ∀ rc ∈ (mcStep st item).1, rc.pricing ≠ [] := by
  rcases mcStep_fst st item with he | he <;> rw [he]
  · exact h
  · exact flushCards_preserves st.1 st.2 h

lemma mcFold_preserves (items : List MCItem) (st : List RateCard × Option RateCard)
    (h : ∀ rc ∈ st.1, rc.pricing ≠ []) :
    ∀ rc ∈ (items.foldl mcStep st).1, rc.pricing ≠ [] := by
  induction items generalizing st with
  | nil => simpa using h
  | cons item rest ih =>
      simp only [List.foldl_cons]
      exact ih (mcStep st item) (mcStep_preserves st item h)

/-! ### fill_service_types.py -/

/-- Python `a if a is not None else b` on options (first non-`None` wins). -/
def oor {α : Type} (a b : Option α) : Option α :=
  match a with
  | some v => some v
  | none => b

@[simp] lemma oor_none_left {α : Type} (b : Option α) : oor none b = b := rfl

@[simp] lemma oor_some_left {α : Type} (v : α) (b : Option α) : oor (some v) b = some v := rfl

@[simp] lemma oor_none_right {α : Type} (a : Option α) : oor a none = a := by
  cases a <;> rfl

lemma oor_assoc {α : Type} (a b c : Option α) : oor (oor a b) c = oor a (oor b c) := by
  cases a <;> rfl

lemma oor_idem {α : Type} (a b : Option α) : oor (oor a b) b = oor a b := by
  cases a <;> cases b <;> rfl

lemma getLast?_cons_oor {α : Type} (v : α) (l : List α) :
    (v :: l).getLast? = oor l.getLast? (some v) := by
  induction l generalizing v with
  | nil => rfl
  | cons w t ih =>
      rw [List.getLast?_cons_cons, ih w]
      cases t.getLast? <;> rfl

/-- One pass of `fill_null_service_types` (fill_service_types.py), carrying
the last non-null `service_type` seen so far; returns the rewritten
sections and the fill count. -/
def fillAux (last : Option Scalar) : List RateCard → List RateCard × Nat
  | [] => ([], 0)
  | sec :: rest =>
      let newSt := oor sec.service_type last
      let inc : Nat := if sec.service_type = none ∧ last.isSome then 1 else 0
      let res := fillAux (oor newSt last) rest
      ({ sec with service_type := newSt } :: res.1, inc + res.2)

/-- `fill_null_service_types` (fill_service_types.py): walk `MainCosts`,
replacing a null `service_type` with the previous non-null one; returns the
updated sections and the number of filled sections (the source mutates the
sections in place and returns the count). -/
def fill_null_service_types (mcs : List RateCard) : List RateCard × Nat :=
  if mcs.isEmpty then (mcs, 0) else fillAux none mcs

/-- The `service_type` of the nearest section before index `i` whose
`service_type` is non-null. -/
def nearestPrevService (mcs : List RateCard) (i : Nat) : Option Scalar :=
  ((mcs.take i).filterMap (fun sec => sec.service_type)).getLast?

/-- The section at index `i` with its `service_type` forward-filled from
`prev` when null. -/
def filledWith (sec : RateCard) (prev : Option Scalar) : RateCard :=
  { sec with service_type := oor sec.service_type prev }

lemma fillAux_last_eq (last : Option Scalar) (sec : RateCard) :
    oor (oor sec.service_type last) last = oor sec.service_type last :=
  oor_idem _ _

lemma fillAux_len (last : Option Scalar) (l : List RateCard) :
    (fillAux last l).1.length = l.length := by
  induction l generalizing last with
  | nil => rfl
  | cons sec rest ih => simp [fillAux, ih]

lemma fillAux_get (last : Option Scalar) (l : List RateCard) (i : Nat) :
    (fillAux last l).1[i]? =
      (l[i]?).map (fun sec => filledWith sec (oor (nearestPrevService l i) last)) := by
  induction l generalizing last i with
  | nil => simp [fillAux]
  | cons sec rest ih =>
      cases i with
      | zero => simp [fillAux, filledWith, nearestPrevService]
      | succ j =>
          have step : (fillAux last (sec :: rest)).1[j + 1]? =
              (fillAux (oor (oor sec.service_type last) last) rest).1[j]? := by
            simp [fillAux]
          rw [step, fillAux_last_eq, ih (oor sec.service_type last) j]
          have harr : oor (nearestPrevService rest j) (oor sec.service_type last)
              = oor (nearestPrevService (sec :: rest) (j + 1)) last := by
            unfold nearestPrevService
            rcases hst : sec.service_type with _ | v
            · simp [List.take_succ_cons, hst]
            · simp only [List.take_succ_cons, List.filterMap_cons, hst]
              rw [getLast?_cons_oor, oor_assoc]
          simp only [List.getElem?_cons_succ, harr]

lemma fillAux_cnt (last : Option Scalar) (l : List RateCard) :
    (fillAux last l).2 =
      ((l.zip (fillAux last l).1).filter (fun p => p.1 ≠ p.2)).length := by
  induction l generalizing last with
  | nil => rfl
  | cons sec rest ih =>
      have hz : ((sec :: rest).zip (fillAux last (sec :: rest)).1) =
          (sec, filledWith sec last) ::
            (rest.zip (fillAux (oor sec.service_type last) rest).1) := by
        simp [fillAux, fillAux_last_eq, filledWith]
      have hcnt : (fillAux last (sec :: rest)).2 =
          (if sec.service_type = none ∧ last.isSome then 1 else 0) +
            (fillAux (oor sec.service_type last) rest).2 := by
        simp [fillAux, fillAux_last_eq]
      rw [hcnt, ih (oor sec.service_type last), hz, List.filter_cons]
      rcases hst : sec.service_type with _ | v
      · rcases hl : last with _ | w
        · have heq : sec = filledWith sec none := by
            cases sec; simp only [filledWith, oor] at *; simp [hst]
          rw [← heq]
          simp [hst]
        · have hne : ¬ (sec = filledWith sec (some w)) := by
            cases sec
            simp only [filledWith, oor] at *
            simp [hst]
          simp [hne, hst, Nat.add_comm]
      · have heq : sec = filledWith sec last := by
          cases sec; simp only [filledWith, oor] at *; simp [hst]
        rw [← heq]
        simp [hst]

/-! ### Country-code resolver (create_table.py) -/

/-- `name_to_code.get(k)`: the value of the last assignment to key `k`
(Python dict semantics over the load order). -/
def dictGet (m : List (String × String)) (k : String) : Option String :=
  m.foldl (fun acc p => if p.1 = k then some p.2 else acc) none

/-- An apostrophe character, as a string. -/
def apos : String := ⟨[Char.ofNat 39]⟩

/-- The fixed suffix patterns stripped by `_country_to_code`
(", Peoples Republic", ", People's Republic", ", Peoples Rep.",
", People's Rep.", " Peoples Republic", " People's Republic"). -/
def peopleSuffixes : List String :=
  [", Peoples Republic", ", People" ++ apos ++ "s Republic",
   ", Peoples Rep.", ", People" ++ apos ++ "s Rep.",
   " Peoples Republic", " People" ++ apos ++ "s Republic"]

/-- The base normalizations of `_country_to_code`:
"Republic Of"/"Republic of" to "Rep. Of", then ", Republic"/" Republic"
to ", Rep."/" Rep.". -/
def republicRewrite (s : String) : String :=
  preplace (preplace (preplace (preplace s "Republic Of" "Rep. Of")
    "Republic of" "Rep. Of") ", Republic" ", Rep.") " Republic" " Rep."

/-- `strip().strip(",").strip()` applied to a suffix-stripped variant. -/
def stripCS (s : String) : String := pstrip ⟨stripCommas (pstrip s).data⟩

/-- The rewrite variants tried by `_country_to_code`, in source order:
the republic-rewritten string, its " And "/" & " swaps, then the
people's-republic suffix-stripped forms (appended only when non-empty). -/
def variantsOf (s : String) : List String :=
  let n := republicRewrite s
  [n, preplace n " And " " & ", preplace n " & " " And "] ++
    peopleSuffixes.filterMap (fun suf =>
      if pends n suf || pyIn suf n then
        let base := stripCS (preplace n suf "")
        if base ≠ "" then some base else none
      else none)

/-- The tail loop of `_country_to_code`: try each variant exact, then
uppercased; first hit wins; empty variants are skipped. -/
def tryVariants (m : List (String × String)) : List String → String
  | [] => ""
  | v :: rest =>
      if v = "" then tryVariants m rest
      else
        match dictGet m v with
        | some c => c
        | none =>
            match dictGet m (pupper v) with
            | some c => c
            | none => tryVariants m rest

/-- `_country_to_code` (create_table.py): resolve a country name to its
code; exact, then uppercased, then the rewrite variants (each exact, then
uppercased); empty string when nothing matches. -/
def country_to_code (country : String) (m : List (String × String)) : String :=
  let s := pstrip country
  if s = "" then ""
  else
    match dictGet m s with
    | some c => c
    | none =>
        match dictGet m (pupper s) with
        | some c => c
        | none => tryVariants m (variantsOf s)

/-- Normalization of a code value at load time: strip; when it contains a
comma, keep only the (stripped) text before the first comma. -/
def normCode (c : String) : String :=
  let c := pstrip c
  if ',' ∈ c.data then pstrip ⟨takeUntilChar c.data ','⟩ else c

/-- Split at the first occurrence of a character (`s.split(c, 1)` when `c`
occurs in `s`). -/
def splitAtFirstChar (c : Char) (l : List Char) : List Char × List Char :=
  (l.takeWhile (· ≠ c), (l.dropWhile (· ≠ c)).drop 1)

/-- `_load_country_codes` (create_table.py), over the lines of the file:
skip blank or tab-less lines, split at the first tab into name and code,
normalize the code, and record the pair when the name is non-empty (later
lines overwrite earlier ones through `dictGet`). -/
def loadLineStep (acc : List (String × String)) (line : String) : List (String × String) :=
  let l := pstrip line
  if l = "" ∨ '\t' ∉ l.data then acc
  else
    let parts := splitAtFirstChar '\t' l.data
    let name := pstrip ⟨parts.1⟩
    let code := normCode ⟨parts.2⟩
    if name ≠ "" then acc ++ [(name, code)] else acc

def load_country_codes (lines : List String) : List (String × String) :=
  lines.foldl loadLineStep []

/-- The candidate list described by the specification: the name, its
uppercase, then every (non-empty) rewrite variant exact-then-uppercased. -/
def candidateList (s : String) : List String :=
  s :: pupper s :: (variantsOf s).flatMap (fun v => if v = "" then [] else [v, pupper v])

/-- First hit of the lookup over a candidate list. -/
def firstHit (m : List (String × String)) : List String → Option String
  | [] => none
  | c :: rest =>
      match dictGet m c with
      | some code => some code
      | none => firstHit m rest

/-- Specification-side resolver: first hit over `candidateList`, empty
string when no candidate matches. -/
def resolveSpec (country : String) (m : List (String × String)) : String :=
  let s := pstrip country
  if s = "" then "" else (firstHit m (candidateList s)).getD ""

lemma tryVariants_eq_firstHit (m : List (String × String)) (vs : List String) :
    tryVariants m vs =
      (firstHit m (vs.flatMap (fun v => if v = "" then [] else [v, pupper v]))).getD "" := by
  induction vs with
  | nil => rfl
  | cons v rest ih =>
      by_cases hv : v = ""
      · simp only [tryVariants, List.flatMap_cons, hv, if_pos rfl]
        simpa using ih
      · simp only [tryVariants, List.flatMap_cons, if_neg hv]
        rcases h1 : dictGet m v with _ | c
        · rcases h2 : dictGet m (pupper v) with _ | c
          · simp [firstHit, h1, h2, ih]
          · simp [firstHit, h1, h2]
        · simp [firstHit, h1]

lemma not_mem_takeWhile_ne (l : List Char) (c : Char) :
    c ∉ l.takeWhile (fun x => x ≠ c) := by
  intro hmem
  have := List.mem_takeWhile_imp hmem
  simp at this

lemma not_mem_of_sublist {l₁ l₂ : List Char} (h : List.Sublist l₁ l₂) (c : Char)
    (h₂ : c ∉ l₂) : c ∉ l₁ := fun hc => h₂ (h.subset hc)

lemma stripL_sublist (l : List Char) : List.Sublist (stripL l) l := by
  unfold stripL
  have h1 : List.Sublist (l.dropWhile wsp) l := List.dropWhile_sublist _
  have h2 : List.Sublist ((l.dropWhile wsp).reverse.dropWhile wsp) (l.dropWhile wsp).reverse :=
    List.dropWhile_sublist _
  have h3 : List.Sublist ((l.dropWhile wsp).reverse.dropWhile wsp).reverse (l.dropWhile wsp) := by
    have := h2.reverse
    simpa using this
  exact h3.trans h1

lemma normCode_no_comma (c : String) : ',' ∉ (normCode c).data := by
  unfold normCode
  by_cases h : ',' ∈ (pstrip c).data
  · rw [if_pos h]
    exact not_mem_of_sublist (stripL_sublist _) ','
      (not_mem_takeWhile_ne (pstrip c).data ',')
  · rw [if_neg h]
    exact h

lemma loadLineStep_no_comma (acc : List (String × String)) (line : String)
    (hacc : ∀ e ∈ acc, ',' ∉ e.2.data) :
    ∀ e ∈ loadLineStep acc line, ',' ∉ e.2.data := by
  intro e he
  simp only [loadLineStep] at he
  split at he
  · exact hacc e he
  · split at he
    · rcases List.mem_append.mp he with h | h
      · exact hacc e h
      · rw [List.mem_singleton.mp h]
        exact normCode_no_comma _
    · exact hacc e he

lemma load_no_comma (lines : List String) :
    ∀ e ∈ load_country_codes lines, ',' ∉ e.2.data := by
  unfold load_country_codes
  suffices h : ∀ acc, (∀ e ∈ acc, ',' ∉ e.2.data) →
      ∀ e ∈ lines.foldl loadLineStep acc, ',' ∉ e.2.data by
    exact h [] (by intro e he; simp at he)
  induction lines with
  | nil => intro acc hacc e he; exact hacc e he
  | cons line rest ih =>
      intro acc hacc e he
      exact ih _ (loadLineStep_no_comma acc line hacc) e he

/-! ### Python float() and the zone sort key (create_table.py) -/

/-- Numeric value of a decimal digit character. -/
def digitVal (c : Char) : Nat := c.toNat - 48

/-- `10 ^ n` over `Nat`. -/
def pow10 (n : Nat) : Nat := 10 ^ n

/-- Continue a digit run (with single underscores allowed between
digits, as in Python numeric literals): accumulated value, digit count,
remaining input. -/
def digitsGo : Nat → Nat → List Char → Nat × Nat × List Char
  | v, cnt, [] => (v, cnt, [])
  | v, cnt, c :: rest =>
      if c.isDigit then digitsGo (v * 10 + digitVal c) (cnt + 1) rest
      else if c = '_' then
        match rest with
        | [] => (v, cnt, [c])
        | d :: rest₂ =>
            if d.isDigit then digitsGo (v * 10 + digitVal d) (cnt + 1) rest₂
            else (v, cnt, c :: d :: rest₂)
      else (v, cnt, c :: rest)

/-- Parse a non-empty digit run; `none` when the input does not start
with a digit. -/
def parseDigits : List Char → Option (Nat × Nat × List Char)
  | [] => none
  | c :: rest =>
      if c.isDigit then some (digitsGo (digitVal c) 1 rest) else none

/-- The exact value of a parsed float literal, kept as an unnormalized
numerator/denominator pair (the denominator is a positive power of ten);
Lean `Rat` arithmetic does not reduce inside the kernel, so comparisons
are done by cross-multiplication instead. -/
structure PyFloatVal where
  num : Int
  den : Nat
deriving DecidableEq, Repr

/-- Comparison of the exact values: `a.num / a.den < b.num / b.den`. -/
def PyFloatVal.lt (a b : PyFloatVal) : Prop :=
  a.num * (b.den : Int) < b.num * (a.den : Int)

instance (a b : PyFloatVal) : Decidable (PyFloatVal.lt a b) := by
  unfold PyFloatVal.lt; exact inferInstance

/-- Negation of the exact value. -/
def PyFloatVal.neg (a : PyFloatVal) : PyFloatVal := ⟨-a.num, a.den⟩

/-- Assemble the parsed parts into the exact value
`(iv + fv / 10^fc) * 10^(±ev)`. -/
def ratOfParts (iv fv fc : Nat) (ePos : Bool) (ev : Nat) : PyFloatVal :=
  let mant : Nat := iv * pow10 fc + fv
  if ePos then ⟨(mant * pow10 ev : Nat), pow10 fc⟩
  else ⟨(mant : Nat), pow10 fc * pow10 ev⟩

/-- Parse the exponent digits and require the input to be exhausted. -/
def finishExpDigits (iv fv fc : Nat) (ePos : Bool) (l : List Char) : Option PyFloatVal :=
  match parseDigits l with
  | some (ev, _, []) => some (ratOfParts iv fv fc ePos ev)
  | _ => none

/-- Parse the optional exponent part and require the input to be
exhausted. -/
def finishExp (iv fv fc : Nat) : List Char → Option PyFloatVal
  | [] => some (ratOfParts iv fv fc true 0)
  | e :: rest =>
      if e = 'e' ∨ e = 'E' then
        match rest with
        | '+' :: rest₂ => finishExpDigits iv fv fc true rest₂
        | '-' :: rest₂ => finishExpDigits iv fv fc false rest₂
        | _ => finishExpDigits iv fv fc true rest
      else none

/-- Parse the unsigned body of a float literal:
`digits [. [digits]] [exp]` or `. digits [exp]`. -/
def parseUnsigned (l : List Char) : Option PyFloatVal :=
  match parseDigits l with
  | some (iv, _, rest) =>
      match rest with
      | '.' :: rest₂ =>
          match parseDigits rest₂ with
          | some (fv, fc, rest₃) => finishExp iv fv fc rest₃
          | none => finishExp iv 0 0 rest₂
      | _ => finishExp iv 0 0 rest
  | none =>
      match l with
      | '.' :: rest₂ =>
          match parseDigits rest₂ with
          | some (fv, fc, rest₃) => finishExp 0 fv fc rest₃
          | none => none
      | _ => none

/-- Python `float(s)`, over the numeric-literal grammar (optional sign,
digits with underscores, optional fraction and exponent), as an exact
rational; whitespace is stripped first.  The `inf`/`infinity`/`nan`
spellings, which have no rational value, are not accepted by the model. -/
def pyFloat (s : String) : Option PyFloatVal :=
  match stripL s.data with
  | '+' :: rest => parseUnsigned rest
  | '-' :: rest => (parseUnsigned rest).map PyFloatVal.neg
  | l => parseUnsigned l

/-- `_zone_has_letters` (create_table.py): the zone identifier (after an
optional leading "Zone ") contains a letter. -/
def zone_has_letters (zone_name : String) : Bool :=
  let s := pstrip zone_name
  if s = "" then false
  else
    let suffix := if pstarts (pupper s) "ZONE " then pstrip (pdrop s 5) else s
    suffix.data.any Char.isAlpha

/-- The zone suffix examined by `_zone_sort_key`: strip, then drop an
optional leading "Zone " (case-insensitive) and strip again. -/
def zoneSuffix (zone_name : String) : String :=
  let s := pstrip zone_name
  if pstarts (pupper s) "ZONE " then pstrip (pdrop s 5) else s

/-- The keys `(1, 0)` and `(1, 1)` of `_zone_sort_key`. -/
def key10 : Nat × PyFloatVal := (1, ⟨0, 1⟩)

def key11 : Nat × PyFloatVal := (1, ⟨1, 1⟩)

/-- `_zone_sort_key` (create_table.py): `(0, float(suffix))` when the
suffix parses as a float; `(1, 0)` for an empty zone name; otherwise
`(1, 0)` when the name bears a letter and `(1, 1)` when not. -/
def zone_sort_key (zone_name : String) : Nat × PyFloatVal :=
  if pstrip zone_name = "" then key10
  else
    match pyFloat (zoneSuffix zone_name) with
    | some x => (0, x)
    | none => if zone_has_letters zone_name then key10 else key11

/-- Python tuple comparison `<` on the sort keys. -/
def keyLt (a b : Nat × PyFloatVal) : Prop :=
  a.1 < b.1 ∨ (a.1 = b.1 ∧ PyFloatVal.lt a.2 b.2)

instance (a b : Nat × PyFloatVal) : Decidable (keyLt a b) := by
  unfold keyLt; exact inferInstance

lemma pyFloat_empty : pyFloat "" = none := rfl

/-! ### Zoning matrix parsing and lane expansion (create_table.py) -/

/-- `_main_words` (create_table.py): uppercase whitespace tokens of the
text, excluding the literal tokens ZONE and MATRIX.  The source builds a
Python set; the list here is only used for emptiness and subset tests, for
which duplicates and order are irrelevant. -/
def main_words (text : String) : List String :=
  (psplitWs (pupper text)).filter (fun w => w ≠ "ZONE" ∧ w ≠ "MATRIX")

/-- `_matrix_zone_to_letter` (create_table.py): "Zone E" becomes "E". -/
def matrix_zone_to_letter (matrix_zone : String) : String :=
  let s := pstrip matrix_zone
  if s = "" then ""
  else if pstarts (pupper s) "ZONE " then pupper (pstrip (pdrop s 5))
  else pupper s

/-- Tier 1 of `_find_matrix_for_service`: exact substring either way. -/
def tier1 (service mn : String) : Bool := pyIn service mn || pyIn mn service

/-- Tier 2: the same test after stripping " ZONE MATRIX" from the
candidate name. -/
def tier2 (service mn : String) : Bool :=
  let normalized := pstrip (preplace mn " ZONE MATRIX" "")
  pyIn service normalized || pyIn normalized service

/-- Tier 3: main-words containment — the candidate's significant words
(excluding ZONE/MATRIX) are non-empty and all appear in the service. -/
def tier3 (service mn : String) : Bool :=
  let matrix_words := main_words (preplace mn " ZONE MATRIX" "")
  let service_words := main_words service
  decide (matrix_words ≠ []) && matrix_words.all (fun w => service_words.contains w)

/-- `_find_matrix_for_service` (create_table.py), parameterized by the
enumeration order of the candidate matrix names: the source iterates a
Python set, whose iteration order is unspecified (hash-seed dependent);
each tier returns the first matching name in that order. -/
def find_matrix_for_service (names : List String) (service : String) : Option String :=
  let service := pstrip service
  if service = "" then none
  else
    match names.find? (tier1 service) with
    | some mn => some mn
    | none =>
        match names.find? (tier2 service) with
        | some mn => some mn
        | none => names.find? (tier3 service)

/-- `row.get(k) or ''` on a zoning-matrix row (fields modelled as strings:
the extracted JSON carries the Azure string values here). -/
def zget (row : List (String × String)) (k : String) : String := (odGet row k).getD ""

/-- A key matching the regex `^DestinationZone\d+$`. -/
def isDestKey (k : String) : Bool :=
  pstarts k "DestinationZone" && decide ((pdrop k 15).data ≠ []) &&
    (pdrop k 15).data.all Char.isDigit

/-- The numeric suffix of a `DestinationZoneN` key. -/
def destKeyNum (k : String) : Nat :=
  (pdrop k 15).data.foldl (fun a c => a * 10 + digitVal c) 0

/-- Comparison used to sort the destination-zone column keys. -/
def destKeyLe (a b : String) : Prop := destKeyNum a ≤ destKeyNum b

instance (a b : String) : Decidable (destKeyLe a b) := by
  unfold destKeyLe; exact inferInstance

/-- The parser state of `parse_zoning_matrix`: the lookup built so far,
the header's destination column keys and zone numbers, and the current
matrix name. -/
structure ZState where
  result : List ((String × String) × List (String × String))
  destCols : List String
  headerNums : List String
  current : Option String

/-- Append a pair to `result[key]`, creating the entry at the end when
absent (Python `result.setdefault`-style access then `append`). -/
def addPair (res : List ((String × String) × List (String × String)))
    (key : String × String) (pair : String × String) :
    List ((String × String) × List (String × String)) :=
  odSet res key ((odGet res key).getD [] ++ [pair])

/-- One row of `parse_zoning_matrix` (create_table.py): a header row
(non-empty MatrixName) records the sorted destination columns and their
zone numbers; a data row appends one (origin, destination) pair per
non-empty column letter under `(matrix, LETTER)`. -/
def zstep (st : ZState) (row : List (String × String)) : ZState :=
  let matrix_name := pstrip (zget row "MatrixName")
  let origin_zone := pstrip (zget row "OriginZone")
  if matrix_name ≠ "" then
    let destKeys := List.insertionSort destKeyLe ((row.map (fun p => p.1)).filter isDestKey)
    { result := st.result
      destCols := destKeys
      headerNums := destKeys.map (fun k => pstrip (zget row k))
      current := some matrix_name }
  else if st.current.isSome ∧ origin_zone ≠ "" ∧ st.destCols ≠ [] then
    { st with result :=
        (st.destCols.zip st.headerNums).foldl (fun res dk =>
          if dk.2 = "" then res
          else
            let cell := pstrip (zget row dk.1)
            if cell = "" then res
            else addPair res (st.current.getD "", pupper cell) (origin_zone, dk.2)) st.result }
  else st

/-- `parse_zoning_matrix` (create_table.py). -/
def parse_zoning_matrix (zm : List (List (String × String))) :
    List ((String × String) × List (String × String)) :=
  (zm.foldl zstep ⟨[], [], [], none⟩).result

/-- One output lane row of the Matrix Builder (the Excel-sheet dict with
keys Lane #, Origin, Destination, Service, Matrix zone and the
per-(category, weight) cost cells). -/
structure MatrixRow where
  lane : Nat
  origin : String
  destination : String
  service : String
  matrix_zone : String
  costs : List ((String × String) × String)
deriving DecidableEq, Repr

/-- First-occurrence deduplication (used to enumerate the candidate
matrix names `{mn for (mn, _) in zoning_lookup}`; CPython's set iteration
order is unspecified, this embedding fixes the first-occurrence order —
the theorems that depend on the order say so explicitly). -/
def firstDedupAux (seen : List String) : List String → List String
  | [] => []
  | x :: rest =>
      if seen.contains x then firstDedupAux seen rest
      else x :: firstDedupAux (x :: seen) rest

/-- The candidate matrix names of a zoning lookup. -/
def lookupNames (zl : List ((String × String) × List (String × String))) : List String :=
  firstDedupAux [] (zl.map (fun e => e.1.1))

/-- One lane of `expand_main_costs_lanes_by_zoning`: pass the row through
unchanged when its matrix zone is empty, the derived letter is empty, no
matrix name resolves, or the pair list is empty; otherwise one clone per
(origin, destination) pair. -/
def expandOne (zl : List ((String × String) × List (String × String)))
    (row : MatrixRow) : List MatrixRow :=
  let matrix_zone := pstrip row.matrix_zone
  let service := pstrip row.service
  if matrix_zone = "" then [row]
  else
    let zone_letter := matrix_zone_to_letter matrix_zone
    if zone_letter = "" then [row]
    else
      match find_matrix_for_service (lookupNames zl) service with
      | none => [row]
      | some mn =>
          let pairs := (odGet zl (mn, zone_letter)).getD []
          if pairs = [] then [row]
          else pairs.map (fun p =>
            { row with
                origin := if p.1 ≠ "" then "Zone " ++ p.1 else ""
                destination := if p.2 ≠ "" then "Zone " ++ p.2 else "" })

/-- Re-number `Lane #` 1..N in list order. -/
def renumber (rows : List MatrixRow) : List MatrixRow :=
  rows.enum.map (fun p => { p.2 with lane := p.1 + 1 })

/-- `expand_main_costs_lanes_by_zoning` (create_table.py). -/
def expand_main_costs_lanes_by_zoning (matrix_rows : List MatrixRow)
    (zm : List (List (String × String))) : List MatrixRow :=
  if matrix_rows = [] then matrix_rows
  else
    let zl := parse_zoning_matrix zm
    if zl = [] then matrix_rows
    else renumber (matrix_rows.flatMap (expandOne zl))

/-- The pairs a lane is expanded over: empty in all the pass-through
cases, the looked-up list otherwise. -/
def matchedPairs (zl : List ((String × String) × List (String × String)))
    (row : MatrixRow) : List (String × String) :=
  let matrix_zone := pstrip row.matrix_zone
  let service := pstrip row.service
  if matrix_zone = "" then []
  else
    let zone_letter := matrix_zone_to_letter matrix_zone
    if zone_letter = "" then []
    else
      match find_matrix_for_service (lookupNames zl) service with
      | none => []
      | some mn => (odGet zl (mn, zone_letter)).getD []

lemma foldl_preserve {α β : Type} (P : β → Prop) (f : β → α → β)
    (hstep : ∀ b a, P b → P (f b a)) :
    ∀ (l : List α) (init : β), P init → P (l.foldl f init) := by
  intro l
  induction l with
  | nil => intro init h; exact h
  | cons a rest ih =>
      intro init h
      exact ih (f init a) (hstep init a h)

lemma mem_odSet_imp {α β : Type} [DecidableEq α] (P : α × β → Prop) :
    ∀ (m : List (α × β)) (k : α) (v : β), (∀ e ∈ m, P e) → P (k, v) →
      ∀ e ∈ odSet m k v, P e := by
  intro m
  induction m with
  | nil =>
      intro k v _ hv e he
      rw [List.mem_singleton.mp he]; exact hv
  | cons hd rest ih =>
      intro k v hm hv e he
      unfold odSet at he
      split at he
      · rcases List.mem_cons.mp he with he | he
        · rw [he]; exact hv
        · exact hm e (List.mem_cons_of_mem hd he)
      · rcases List.mem_cons.mp he with he | he
        · rw [he]; exact hm hd (List.mem_cons_self hd rest)
        · exact ih k v (fun e' he' => hm e' (List.mem_cons_of_mem hd he')) hv e he

lemma odGet_mem {α β : Type} [DecidableEq α] (m : List (α × β)) (k : α) (v : β)
    (h : odGet m k = some v) : (k, v) ∈ m := by
  unfold odGet at h
  rcases hf : m.find? (fun p => p.1 = k) with _ | p
  · rw [hf] at h; exact Option.noConfusion h
  · rw [hf] at h
    have hpk : p.1 = k := by
      have := List.find?_some hf
      simpa using this
    have hpv : p.2 = v := by simpa using h
    have hpm := List.mem_of_find?_eq_some hf
    have : (k, v) = p := by
      rcases p with ⟨p1, p2⟩
      simp at hpk hpv
      rw [hpk, hpv]
    rw [this]; exact hpm

/-- All stored pairs of a zoning lookup have non-empty origin and
destination zone numbers. -/
def goodPairs (res : List ((String × String) × List (String × String))) : Prop :=
  ∀ e ∈ res, ∀ p ∈ e.2, p.1 ≠ "" ∧ p.2 ≠ ""

lemma addPair_good (res : List ((String × String) × List (String × String)))
    (key : String × String) (pair : String × String)
    (h : goodPairs res) (hp : pair.1 ≠ "" ∧ pair.2 ≠ "") :
    goodPairs (addPair res key pair) := by
  unfold goodPairs at h
  have hval : ∀ p ∈ (odGet res key).getD [] ++ [pair], p.1 ≠ "" ∧ p.2 ≠ "" := by
    intro p hp'
    rcases List.mem_append.mp hp' with h' | h'
    · rcases hg : odGet res key with _ | l
      · rw [hg] at h'; simp at h'
      · rw [hg] at h'
        exact h (key, l) (odGet_mem res key l hg) p h'
    · rw [List.mem_singleton.mp h']; exact hp
  intro e he
  exact mem_odSet_imp (fun e => ∀ p ∈ e.2, p.1 ≠ "" ∧ p.2 ≠ "") res key _ h hval e he

lemma zstep_good (st : ZState) (row : List (String × String))
    (h : goodPairs st.result) : goodPairs (zstep st row).result := by
  simp only [zstep]
  split
  · exact h
  · split
    · rename_i hcond
      refine foldl_preserve goodPairs _ ?_ _ _ h
      intro res dk hres
      by_cases hdn : dk.2 = ""
      · simp only [hdn, if_pos rfl]; exact hres
      · rw [if_neg hdn]
        by_cases hcell : pstrip (zget row dk.1) = ""
        · rw [if_pos hcell]; exact hres
        · rw [if_neg hcell]
          exact addPair_good res _ _ hres ⟨hcond.2.1, hdn⟩
    · exact h

lemma parse_good (zm : List (List (String × String))) :
    goodPairs (parse_zoning_matrix zm) := by
  unfold parse_zoning_matrix
  have : ∀ (l : List (List (String × String))) (st : ZState),
      goodPairs st.result → goodPairs (l.foldl zstep st).result := by
    intro l
    induction l with
    | nil => intro st h; exact h
    | cons r rest ih => intro st h; exact ih (zstep st r) (zstep_good st r h)
  exact this zm ⟨[], [], [], none⟩ (by intro e he; simp at he)

lemma matchedPairs_good (zm : List (List (String × String))) (row : MatrixRow) :
    ∀ p ∈ matchedPairs (parse_zoning_matrix zm) row, p.1 ≠ "" ∧ p.2 ≠ "" := by
  intro p hp
  simp only [matchedPairs] at hp
  split at hp
  · simp at hp
  · split at hp
    · simp at hp
    · split at hp
      · simp at hp
      · rename_i mn hmn
        rcases hg : odGet (parse_zoning_matrix zm) (mn, matrix_zone_to_letter (pstrip row.matrix_zone)) with _ | l
        · rw [hg] at hp; simp at hp
        · rw [hg] at hp
          exact parse_good zm _ (odGet_mem _ _ _ hg) p hp

/-- The clone built from one matched pair (with the source's guards on
empty zone numbers). -/
def cloneRow (row : MatrixRow) (p : String × String) : MatrixRow :=
  { row with
      origin := if p.1 ≠ "" then "Zone " ++ p.1 else ""
      destination := if p.2 ≠ "" then "Zone " ++ p.2 else "" }

lemma expandOne_eq (zl : List ((String × String) × List (String × String)))
    (row : MatrixRow) :
    expandOne zl row =
      if matchedPairs zl row = [] then [row]
      else (matchedPairs zl row).map (cloneRow row) := by
  unfold expandOne matchedPairs cloneRow
  by_cases h1 : pstrip row.matrix_zone = ""
  · simp [h1]
  · simp only [if_neg h1]
    by_cases h2 : matrix_zone_to_letter (pstrip row.matrix_zone) = ""
    · simp [h2]
    · simp only [if_neg h2]
      rcases h3 : find_matrix_for_service (lookupNames zl) (pstrip row.service) with _ | mn
      · simp
      · by_cases h4 : (odGet zl (mn, matrix_zone_to_letter (pstrip row.matrix_zone))).getD [] = []
        · simp [h4]
        · simp [h4]

lemma expandOne_length (zl : List ((String × String) × List (String × String)))
    (row : MatrixRow) :
    (expandOne zl row).length = max 1 (matchedPairs zl row).length := by
  rw [expandOne_eq]
  by_cases h : matchedPairs zl row = []
  · simp [h]
  · rw [if_neg h, List.length_map]
    have : 0 < (matchedPairs zl row).length := List.length_pos.mpr h
    omega

lemma find_matrix_nil (service : String) : find_matrix_for_service [] service = none := by
  simp only [find_matrix_for_service]
  split
  · rfl
  · rfl

lemma matchedPairs_empty_lookup (row : MatrixRow) : matchedPairs [] row = [] := by
  simp only [matchedPairs]
  split
  · rfl
  · split
    · rfl
    · have h : find_matrix_for_service
          (lookupNames ([] : List ((String × String) × List (String × String))))
          (pstrip row.service) = none := find_matrix_nil _
      rw [h]

lemma sum_map_one {α : Type} (l : List α) : (l.map (fun _ => (1 : Nat))).sum = l.length := by
  induction l with
  | nil => rfl
  | cons a rest ih => simp [ih, Nat.add_comm]

lemma renumber_length (rows : List MatrixRow) : (renumber rows).length = rows.length := by
  unfold renumber
  rw [List.length_map, List.enum_length]

end Rates

namespace Rates

/-! ### The Matrix Builder (`build_matrix_main_costs`, create_table.py)

The sections consumed here are the JSON round-trip of the segmenter's
output; their fields are modelled as strings (the source calls `.strip()`
and `.lower()` on them, which would raise on non-string values, and the
Azure extraction yields strings for these fields). -/

/-- One price row of a section as read by create_table.py. -/
structure CPriceRow where
  weight : String
  zone_prices : List (String × String)
deriving DecidableEq, Repr

/-- One rate-card section as read by create_table.py. -/
structure CSection where
  service_type : Option String
  cost_category : Option String
  weight_unit : Option String
  zone_headers : List (String × String)
  pricing : List CPriceRow
deriving DecidableEq, Repr

/-- The metadata dict (only the carrier is read by the Matrix Builder). -/
structure Metadata where
  carrier : Option String
deriving Repr

/-- Python `x or d` on an optional string (`None` and `""` are falsy). -/
def orDefault (o : Option String) (d : String) : String :=
  match o with
  | some s => if s = "" then d else s
  | none => d

/-- `global_country` (create_table.py): last whitespace token of the
carrier text (newlines replaced by spaces), or empty. -/
def global_country (md : Metadata) : String :=
  let carrier := pstrip (preplace (orDefault md.carrier "") "\n" " ")
  ((psplitWs carrier).getLast?).getD ""

/-- The truthy weights of a section's pricing, first occurrence order
(the source collects them in a Python set; the order only matters through
the sort below, whose key leaves ties unspecified in the source). -/
def truthyWeights (pricing : List CPriceRow) : List String :=
  firstDedupAux [] (pricing.filterMap (fun pe => if pe.weight ≠ "" then some pe.weight else none))

/-- The float value of a weight label (total with a dummy for unparsable
labels; only used when every label parses). -/
def weightVal (w : String) : PyFloatVal := (pyFloat w).getD ⟨0, 1⟩

def weightFloatLe (a b : String) : Prop := ¬ PyFloatVal.lt (weightVal b) (weightVal a)

instance (a b : String) : Decidable (weightFloatLe a b) := by
  unfold weightFloatLe; exact inferInstance

def weightLexLe (a b : String) : Prop := ¬ b < a

instance (a b : String) : Decidable (weightLexLe a b) := by
  unfold weightLexLe; exact inferInstance

/-- `sorted(ws, key=float)` with the whole-set lexical fallback when any
label fails to parse (the `try/except` around the sort). -/
def sortWeightsPy (ws : List String) : List String :=
  if ws.all (fun w => (pyFloat w).isSome) then List.insertionSort weightFloatLe ws
  else List.insertionSort weightLexLe ws

/-- Update the first category-spec entry with the given name in place. -/
def updateSpec : List (String × String × List String) → String → String × List String →
    List (String × String × List String)
  | [], _, _ => []
  | sp :: rest, cat, v => if sp.1 = cat then (cat, v.1, v.2) :: rest else sp :: updateSpec rest cat v

/-- One section of the category-spec pass of `build_matrix_main_costs`:
new categories are appended; repeated categories keep their unit and
merge and re-sort their weight sets. -/
def catStep (specs : List (String × String × List String)) (sec : CSection) :
    List (String × String × List String) :=
  let cost_category := orDefault sec.cost_category ""
  let weight_unit := orDefault sec.weight_unit "KG"
  let weights_sorted := sortWeightsPy (truthyWeights sec.pricing)
  match specs.find? (fun sp => sp.1 = cost_category) with
  | none => specs ++ [(cost_category, weight_unit, weights_sorted)]
  | some sp =>
      let merged := sortWeightsPy (firstDedupAux [] (sp.2.2 ++ weights_sorted))
      updateSpec specs cost_category (sp.2.1, merged)

/-- The category specs, in order of first appearance. -/
def categorySpecs (main_costs : List CSection) : List (String × String × List String) :=
  main_costs.foldl catStep []

/-- The per-section zone → weight → price matrix of
`build_matrix_main_costs` (insertion order preserved). -/
def zonePriceMatrix (sec : CSection) : List (String × List (String × String)) :=
  sec.pricing.foldl (fun m pe =>
    pe.zone_prices.foldl (fun m zp =>
      let zone_name := (odGet sec.zone_headers zp.1).getD zp.1
      odSet m zone_name (odSet ((odGet m zone_name).getD []) pe.weight zp.2)) m) []

/-- The fresh lane row created the first time a (service, zone) key is
seen: origin from import services, destination from export services,
matrix_zone kept only for letter-bearing zone names.  (`Lane #` is not
assigned until the sort; 0 is the not-yet-assigned placeholder.) -/
def newLane (service_type zone_name : String) (is_import is_export : Bool) : MatrixRow :=
  { lane := 0
    origin := if is_import then zone_name else ""
    destination := if is_export then zone_name else ""
    service := service_type
    matrix_zone := if zone_has_letters zone_name then zone_name else ""
    costs := [] }

/-- One section of the lane-row pass: create-or-fetch the lane of each
(service, zone) key and overwrite its (category, weight) cost cells. -/
def laneStep (lanes : List ((String × String) × MatrixRow)) (sec : CSection) :
    List ((String × String) × MatrixRow) :=
  let service_type := pstrip (orDefault sec.service_type "")
  let cost_category := orDefault sec.cost_category ""
  let service_lower := plower service_type
  let is_import := pyIn "import" service_lower
  let is_export := pyIn "export" service_lower
  (zonePriceMatrix sec).foldl (fun lanes zn =>
    let key := (service_type, zn.1)
    let row₀ := (odGet lanes key).getD (newLane service_type zn.1 is_import is_export)
    let row₁ := { row₀ with
      costs := zn.2.foldl (fun cs wp => odSet cs (cost_category, wp.1) wp.2) row₀.costs }
    odSet lanes key row₁) lanes

/-- The lane rows keyed by (service_type, zone_name), insertion order. -/
def lane_rows_of (main_costs : List CSection) : List ((String × String) × MatrixRow) :=
  main_costs.foldl laneStep []

/-- Python `<` on the sort key `(service_type, _zone_sort_key(zone))`. -/
def laneFullLt (a b : String × String) : Prop :=
  a.1 < b.1 ∨ (a.1 = b.1 ∧ keyLt (zone_sort_key a.2) (zone_sort_key b.2))

instance (a b : String × String) : Decidable (laneFullLt a b) := by
  unfold laneFullLt; exact inferInstance

/-- The "may come before" relation of Python's stable sort: `a` may stay
before `b` unless `b`'s key is strictly smaller. -/
def laneKeyLe (a b : String × String) : Prop := ¬ laneFullLt b a

instance (a b : String × String) : Decidable (laneKeyLe a b) := by
  unfold laneKeyLe; exact inferInstance

def laneEntryLe (a b : (String × String) × MatrixRow) : Prop := laneKeyLe a.1 b.1

instance (a b : (String × String) × MatrixRow) : Decidable (laneEntryLe a b) := by
  unfold laneEntryLe; exact inferInstance

/-- The Origin/Destination post-fill of `build_matrix_main_costs`: the
domestic service forces both to the carrier's last word; otherwise, when
the matrix zone is empty, only empty fields are filled. -/
def postFill (carrier_last : String) (row : MatrixRow) : MatrixRow :=
  let service := pstrip row.service
  let matrix_zone := pstrip row.matrix_zone
  if service = "DHL EXPRESS DOMESTIC" then
    if carrier_last ≠ "" then { row with origin := carrier_last, destination := carrier_last }
    else row
  else if matrix_zone = "" then
    if carrier_last ≠ "" then
      { row with
          origin := if pstrip row.origin = "" then carrier_last else row.origin
          destination := if pstrip row.destination = "" then carrier_last else row.destination }
    else row
  else row

/-- `build_matrix_main_costs` (create_table.py): category specs, lane
rows, stable sort by (service, zone key), `Lane #` 1..N in sorted order,
then the Origin/Destination post-fill.  (The source sorts the key list
and indexes the dict; since the keys are unique this equals sorting the
(key, row) pairs.) -/
def build_matrix_main_costs (main_costs : List CSection) (md : Metadata) :
    List MatrixRow × List (String × String × List String) :=
  let category_specs := categorySpecs main_costs
  let lane_rows := lane_rows_of main_costs
  let carrier_last := global_country md
  let sortedLanes := List.insertionSort laneEntryLe lane_rows
  let rows := sortedLanes.enum.map (fun p => postFill carrier_last { p.2.2 with lane := p.1 + 1 })
  (rows, category_specs)

lemma postFill_lane (c : String) (r : MatrixRow) : (postFill c r).lane = r.lane := by
  simp only [postFill]
  split
  · split
    · rfl
    · rfl
  · split
    · split
      · rfl
      · rfl
    · rfl

lemma enumFrom_map_fst_succ {α : Type} :
    ∀ (l : List α) (n : Nat),
      ((List.enumFrom n l).map (fun p => p.1 + 1)) = List.range' (n + 1) l.length := by
  intro l
  induction l with
  | nil => intro n; rfl
  | cons a rest ih =>
      intro n
      rw [List.enumFrom_cons]
      simp only [List.map_cons, ih (n + 1), List.length_cons]
      rfl

lemma build_matrix_lane_numbers (mc : List CSection) (md : Metadata) :
    ((build_matrix_main_costs mc md).1.map (fun r => r.lane)) =
      List.range' 1 ((build_matrix_main_costs mc md).1.length) := by
  simp only [build_matrix_main_costs]
  rw [List.map_map, List.length_map, List.enum_length]
  have heq : ((fun r => MatrixRow.lane r) ∘
      fun p => postFill (global_country md) { p.2.2 with lane := p.1 + 1 }) =
      (fun p : Nat × ((String × String) × MatrixRow) => p.1 + 1) := by
    funext p
    simp [Function.comp, postFill_lane]
  rw [heq]
  exact enumFrom_map_fst_succ _ 0

lemma renumber_lane_numbers (l : List MatrixRow) :
    (renumber l).map (fun r => r.lane) = List.range' 1 l.length := by
  unfold renumber
  rw [List.map_map]
  have heq : ((fun r => MatrixRow.lane r) ∘ fun p => { p.2 with lane := p.1 + 1 }) =
      (fun p : Nat × MatrixRow => p.1 + 1) := by
    funext p
    rfl
  rw [heq]
  exact enumFrom_map_fst_succ _ 0

end Rates

namespace Rates

/-! ### The fuzzy cost-type resolver (`_best_match_cost_type`, create_table.py)

`difflib.SequenceMatcher.ratio` is modelled exactly for the case the
source exercises: no junk and autojunk inactive (autojunk only kicks in
for second strings of 200+ characters).  In that case `find_longest_match`
returns the longest common substring, earliest by start position in the
first string and then in the second, and `ratio` is `2 M / (len a + len b)`
where `M` sums the block sizes of the recursive divide at that block.
Scores are exact fractions (Python compares ratios as doubles; exact
arithmetic agrees on all the comparisons below). -/

/-- Length of the longest common prefix. -/
def cpl : List Char → List Char → Nat
  | x :: xs, y :: ys => if x = y then cpl xs ys + 1 else 0
  | _, _ => 0

/-- All block start candidates (i, j), i ascending then j ascending —
the scan order of difflib's DP. -/
def blockStarts (a b : List Char) : List (Nat × Nat) :=
  (List.range (a.length + 1)).flatMap (fun i =>
    (List.range (b.length + 1)).map (fun j => (i, j)))

/-- The size of the longest matching block. -/
def bestSize (a b : List Char) : Nat :=
  ((blockStarts a b).map (fun p => cpl (a.drop p.1) (b.drop p.2))).foldr max 0

/-- The earliest start (in scan order) of a maximal matching block. -/
def bestStart (a b : List Char) : Nat × Nat :=
  ((blockStarts a b).find? (fun p => cpl (a.drop p.1) (b.drop p.2) = bestSize a b)).getD (0, 0)

/-- Total matched size of difflib's matching blocks: recursive divide at
the longest block.  The fuel is an upper bound on the recursion depth;
`a.length + b.length` suffices. -/
def matchTotalF : Nat → List Char → List Char → Nat
  | 0, _, _ => 0
  | fuel + 1, a, b =>
      let k := bestSize a b
      if k = 0 then 0
      else
        let ij := bestStart a b
        matchTotalF fuel (a.take ij.1) (b.take ij.2) + k +
          matchTotalF fuel (a.drop (ij.1 + k)) (b.drop (ij.2 + k))

/-- Total matched size of difflib's matching blocks. -/
def matchTotal (a b : List Char) : Nat := matchTotalF (a.length + b.length) a b

/-- `PyFloatVal.le`: value comparison by cross-multiplication. -/
def PyFloatVal.le (a b : PyFloatVal) : Prop :=
  a.num * (b.den : Int) ≤ b.num * (a.den : Int)

instance (a b : PyFloatVal) : Decidable (PyFloatVal.le a b) := by
  unfold PyFloatVal.le; exact inferInstance

/-- The exact rational value of a fraction. -/
def PyFloatVal.toRat (v : PyFloatVal) : Rat := (v.num : Rat) / (v.den : Rat)

/-- Exact addition of fractions (kept unnormalized). -/
def fracAdd (x y : PyFloatVal) : PyFloatVal :=
  ⟨x.num * y.den + y.num * x.den, x.den * y.den⟩

/-- `difflib.SequenceMatcher(None, a, b).ratio()` as an exact fraction:
`2 M / (len a + len b)`, and 1 when both are empty. -/
def ratioVal (a b : List Char) : PyFloatVal :=
  if a.length + b.length = 0 then ⟨1, 1⟩
  else ⟨2 * matchTotal a b, a.length + b.length⟩

/-- Characters that form tokens: `[a-z0-9]` (the text is lowercased
before tokenizing). -/
def isTok (c : Char) : Bool := c.isDigit || ('a' ≤ c && c ≤ 'z')

/-- The maximal alphanumeric run at the head of the input. -/
def grabRun : List Char → List Char × List Char
  | [] => ([], [])
  | c :: rest =>
      if isTok c then
        let r := grabRun rest
        (c :: r.1, r.2)
      else ([], c :: rest)

/-- Left-to-right scan of `re.findall` for the token pattern
`[a-z0-9]+(?::[a-z0-9]+)?`: an alphanumeric run optionally extended by a
colon and a second run (the redundant `[a-z]+` alternative never fires).
The fuel is an upper bound on the remaining length. -/
def tokScan : Nat → List Char → List String
  | 0, _ => []
  | _ + 1, [] => []
  | fuel + 1, c :: rest =>
      if isTok c then
        let g := grabRun (c :: rest)
        match g.2 with
        | ':' :: rest2 =>
            let g2 := grabRun rest2
            match g2.1 with
            | [] => (⟨g.1⟩ : String) :: tokScan fuel g.2
            | _ => (⟨g.1 ++ [':'] ++ g2.1⟩ : String) :: tokScan fuel g2.2
        | _ => (⟨g.1⟩ : String) :: tokScan fuel g.2
      else tokScan fuel rest

/-- `_token_set` (create_table.py): the set of tokens of the lowercased,
stripped text, as a first-occurrence list (only membership and counting
of distinct tokens are used). -/
def token_set (text : String) : List String :=
  let s := pstrip (plower text)
  firstDedupAux [] (tokScan s.data.length s.data)

/-- The meaningful tokens of the input: length at least 2 or containing a
colon. -/
def meaningfulTokens (orig : String) : List String :=
  (token_set orig).filter (fun t => 2 ≤ t.length ∨ t.data.contains ':')

/-- Number of meaningful input tokens shared with the candidate. -/
def sharedCnt (orig cand : String) : Nat :=
  ((meaningfulTokens orig).filter (fun t => (token_set cand).contains t)).length

/-- `token_bonus` = 0.4 × shared / meaningful (0 when the input has no
meaningful tokens), as the exact fraction 2·shared / 5·meaningful. -/
def tokenBonus (orig cand : String) : PyFloatVal :=
  let m := (meaningfulTokens orig).length
  if m = 0 then ⟨0, 1⟩
  else ⟨2 * sharedCnt orig cand, (5 * m : Nat)⟩

/-- `char_ratio` of the lowercased strings. -/
def charRatio (x y : String) : PyFloatVal := ratioVal x.data y.data

/-- The per-candidate score: `char_ratio + token_bonus` (the inputs are
the stripped original and the stripped candidate). -/
def scoreV (original ns : String) : PyFloatVal :=
  fracAdd (charRatio (plower original) (plower ns)) (tokenBonus original ns)

/-- The selection loop of `_best_match_cost_type`: skip empty-stripped
candidates, keep the best score seen, strictly-greater to replace. -/
def bmFold (original : String) : List String → PyFloatVal × String → PyFloatVal × String
  | [], st => st
  | n :: rest, st =>
      let ns := pstrip n
      if ns = "" then bmFold original rest st
      else
        let sc := scoreV original ns
        if PyFloatVal.lt st.1 sc then bmFold original rest (sc, ns)
        else bmFold original rest st

/-- `_best_match_cost_type` (create_table.py): best-scoring candidate,
first seen wins ties, returned only when the best score is at least 0.3. -/
def best_match_cost_type (original_name : String) (name_list : List String) : String :=
  if original_name = "" ∨ name_list = [] then ""
  else
    let original := pstrip original_name
    if original = "" then ""
    else
      let st := bmFold original name_list (⟨-1, 1⟩, "")
      if PyFloatVal.le ⟨3, 10⟩ st.1 then st.2 else ""

/-- The value-maximum of a score list (`⟨-1, 1⟩` below every score). -/
def specMax (l : List PyFloatVal) : PyFloatVal :=
  l.foldr (fun x acc => if PyFloatVal.lt acc x then x else acc) ⟨-1, 1⟩

/-- The specification-side resolver: score every candidate, select the
first candidate attaining the maximal score, return it iff the maximum is
at least 0.3. -/
def bestMatchSpec (orig : String) (names : List String) : String :=
  let scores := names.map (fun n => scoreV (pstrip orig) (pstrip n))
  let m := specMax scores
  match (names.zip scores).find? (fun p => ¬ PyFloatVal.lt p.2 m) with
  | some p => if PyFloatVal.le ⟨3, 10⟩ m then pstrip p.1 else ""
  | none => ""

end Rates

namespace Rates

lemma toRat_lt_iff (a b : PyFloatVal) (ha : 0 < a.den) (hb : 0 < b.den) :
    PyFloatVal.lt a b ↔ a.toRat < b.toRat := by
  unfold PyFloatVal.lt PyFloatVal.toRat
  rw [div_lt_div_iff (by exact_mod_cast ha) (by exact_mod_cast hb)]
  constructor
  · intro h; exact_mod_cast h
  · intro h; exact_mod_cast h

lemma toRat_le_iff (a b : PyFloatVal) (ha : 0 < a.den) (hb : 0 < b.den) :
    PyFloatVal.le a b ↔ a.toRat ≤ b.toRat := by
  unfold PyFloatVal.le PyFloatVal.toRat
  rw [div_le_div_iff (by exact_mod_cast ha) (by exact_mod_cast hb)]
  constructor
  · intro h; exact_mod_cast h
  · intro h; exact_mod_cast h

lemma fracAdd_den_pos (x y : PyFloatVal) (hx : 0 < x.den) (hy : 0 < y.den) :
    0 < (fracAdd x y).den := Nat.mul_pos hx hy

lemma fracAdd_toRat (x y : PyFloatVal) (hx : 0 < x.den) (hy : 0 < y.den) :
    (fracAdd x y).toRat = x.toRat + y.toRat := by
  unfold fracAdd PyFloatVal.toRat
  have hx' : ((x.den : Nat) : Rat) ≠ 0 := by exact_mod_cast Nat.pos_iff_ne_zero.mp hx
  have hy' : ((y.den : Nat) : Rat) ≠ 0 := by exact_mod_cast Nat.pos_iff_ne_zero.mp hy
  push_cast
  field_simp

lemma cpl_le_left : ∀ xs ys : List Char, cpl xs ys ≤ xs.length := by
  intro xs
  induction xs with
  | nil => intro ys; cases ys <;> simp [cpl]
  | cons x xs ih =>
      intro ys
      cases ys with
      | nil => simp [cpl]
      | cons y ys =>
          simp only [cpl, List.length_cons]
          split
          · have := ih ys; omega
          · omega

lemma cpl_le_right : ∀ xs ys : List Char, cpl xs ys ≤ ys.length := by
  intro xs
  induction xs with
  | nil => intro ys; cases ys <;> simp [cpl]
  | cons x xs ih =>
      intro ys
      cases ys with
      | nil => simp [cpl]
      | cons y ys =>
          simp only [cpl, List.length_cons]
          split
          · have := ih ys; omega
          · omega

lemma cpl_self (l : List Char) : cpl l l = l.length := by
  induction l with
  | nil => rfl
  | cons c rest ih => simp [cpl, ih]

lemma cpl_take : ∀ xs ys : List Char, xs.take (cpl xs ys) = ys.take (cpl xs ys) := by
  intro xs
  induction xs with
  | nil => intro ys; cases ys <;> simp [cpl]
  | cons x xs ih =>
      intro ys
      cases ys with
      | nil => simp [cpl]
      | cons y ys =>
          simp only [cpl]
          split
          · rename_i hxy
            simp [List.take_succ_cons, hxy, ih ys]
          · simp

lemma mem_blockStarts (a b : List Char) (i j : Nat) (hi : i ≤ a.length) (hj : j ≤ b.length) :
    (i, j) ∈ blockStarts a b := by
  unfold blockStarts
  rw [List.mem_flatMap]
  refine ⟨i, List.mem_range.mpr (by omega), ?_⟩
  rw [List.mem_map]
  exact ⟨j, List.mem_range.mpr (by omega), rfl⟩

lemma blockStarts_bounds (a b : List Char) (p : Nat × Nat) (hp : p ∈ blockStarts a b) :
    p.1 ≤ a.length ∧ p.2 ≤ b.length := by
  unfold blockStarts at hp
  rw [List.mem_flatMap] at hp
  rcases hp with ⟨i, hi, hp⟩
  rw [List.mem_map] at hp
  rcases hp with ⟨j, hj, hpe⟩
  rw [← hpe]
  exact ⟨by have := List.mem_range.mp hi; omega, by have := List.mem_range.mp hj; omega⟩

lemma le_foldr_max (l : List Nat) (x : Nat) (hx : x ∈ l) : x ≤ l.foldr max 0 := by
  induction l with
  | nil => simp at hx
  | cons a rest ih =>
      rcases List.mem_cons.mp hx with h | h
      · subst h; simp only [List.foldr_cons]; omega
      · have := ih h; simp [List.foldr_cons]; omega

lemma foldr_max_attained (l : List Nat) : l.foldr max 0 = 0 ∨ l.foldr max 0 ∈ l := by
  induction l with
  | nil => exact Or.inl rfl
  | cons a rest ih =>
      simp only [List.foldr_cons]
      rcases Nat.le_total a (rest.foldr max 0) with h | h
      · rw [Nat.max_eq_right h]
        rcases ih with h0 | hmem
        · exact Or.inl h0
        · exact Or.inr (List.mem_cons_of_mem a hmem)
      · rw [Nat.max_eq_left h]
        exact Or.inr (List.mem_cons_self a rest)

lemma cpl_drop_le_bestSize (a b : List Char) (i j : Nat) :
    cpl (a.drop i) (b.drop j) ≤ bestSize a b := by
  by_cases hi : i ≤ a.length
  · by_cases hj : j ≤ b.length
    · apply le_foldr_max
      exact List.mem_map_of_mem _ (mem_blockStarts a b i j hi hj)
    · have hbe : b.drop j = [] := List.drop_eq_nil_of_le (by omega)
      rw [hbe]
      cases a.drop i <;> simp [cpl]
  · have hae : a.drop i = [] := List.drop_eq_nil_of_le (by omega)
    rw [hae]
    cases b.drop j <;> simp [cpl]

lemma bestStart_spec (a b : List Char) :
    cpl (a.drop (bestStart a b).1) (b.drop (bestStart a b).2) = bestSize a b ∧
    (bestStart a b).1 ≤ a.length ∧ (bestStart a b).2 ≤ b.length := by
  unfold bestStart
  rcases hf : (blockStarts a b).find?
      (fun p => cpl (a.drop p.1) (b.drop p.2) = bestSize a b) with _ | p
  · exfalso
    rcases foldr_max_attained
        ((blockStarts a b).map (fun p => cpl (a.drop p.1) (b.drop p.2))) with h0 | hmem
    · have h00 : (0, 0) ∈ blockStarts a b :=
        mem_blockStarts a b 0 0 (Nat.zero_le _) (Nat.zero_le _)
      have hc : cpl (a.drop 0) (b.drop 0) = bestSize a b := by
        have hle := cpl_drop_le_bestSize a b 0 0
        have hz : bestSize a b = 0 := h0
        omega
      have := List.find?_eq_none.mp hf (0, 0) h00
      simp only [hc] at this
      simp at this
    · rcases List.mem_map.mp hmem with ⟨p, hp, hpe⟩
      have := List.find?_eq_none.mp hf p hp
      have hpe' : cpl (a.drop p.1) (b.drop p.2) = bestSize a b := hpe
      simp only [hpe'] at this
      simp at this
  · have hpred := List.find?_some hf
    have hmem := List.mem_of_find?_eq_some hf
    have hb := blockStarts_bounds a b p hmem
    rw [hf]
    simp only [Option.getD_some]
    simp at hpred
    exact ⟨hpred, hb.1, hb.2⟩

lemma cpl_nil_right (xs : List Char) : cpl xs [] = 0 := by
  cases xs <;> rfl

lemma bestSize_nil_right (a : List Char) : bestSize a [] = 0 := by
  rcases foldr_max_attained
      ((blockStarts a []).map (fun p => cpl (a.drop p.1) (List.drop p.2 []))) with h0 | hmem
  · exact h0
  · rcases List.mem_map.mp hmem with ⟨p, _, hpe⟩
    rw [bestSize, ← hpe]
    have : List.drop p.2 ([] : List Char) = [] := List.drop_nil
    rw [this, cpl_nil_right]

lemma matchTotalF_nil_right (f : Nat) (a : List Char) : matchTotalF f a [] = 0 := by
  cases f with
  | zero => rfl
  | succ f => simp [matchTotalF, bestSize_nil_right a]

lemma matchTotalF_le (f : Nat) : ∀ a b : List Char,
    matchTotalF f a b ≤ min a.length b.length := by
  induction f with
  | zero => intro a b; simp [matchTotalF]
  | succ f ih =>
      intro a b
      simp only [matchTotalF]
      by_cases hk : bestSize a b = 0
      · simp [hk]
      · rw [if_neg hk]
        obtain ⟨hc, hi, hj⟩ := bestStart_spec a b
        have hkla : bestSize a b ≤ a.length - (bestStart a b).1 := by
          have h := cpl_le_left (a.drop (bestStart a b).1) (b.drop (bestStart a b).2)
          rw [hc, List.length_drop] at h
          exact h
        have hklb : bestSize a b ≤ b.length - (bestStart a b).2 := by
          have h := cpl_le_right (a.drop (bestStart a b).1) (b.drop (bestStart a b).2)
          rw [hc, List.length_drop] at h
          exact h
        have h1 := ih (a.take (bestStart a b).1) (b.take (bestStart a b).2)
        have h2 := ih (a.drop ((bestStart a b).1 + bestSize a b))
          (b.drop ((bestStart a b).2 + bestSize a b))
        rw [List.length_take, List.length_take] at h1
        rw [List.length_drop, List.length_drop] at h2
        have h1a : matchTotalF f (a.take (bestStart a b).1) (b.take (bestStart a b).2) ≤
            (bestStart a b).1 := le_trans h1 (le_trans (min_le_left _ _) (min_le_left _ _))
        have h1b : matchTotalF f (a.take (bestStart a b).1) (b.take (bestStart a b).2) ≤
            (bestStart a b).2 := le_trans h1 (le_trans (min_le_right _ _) (min_le_left _ _))
        have h2a : matchTotalF f (a.drop ((bestStart a b).1 + bestSize a b))
            (b.drop ((bestStart a b).2 + bestSize a b)) ≤
            a.length - ((bestStart a b).1 + bestSize a b) := le_trans h2 (min_le_left _ _)
        have h2b : matchTotalF f (a.drop ((bestStart a b).1 + bestSize a b))
            (b.drop ((bestStart a b).2 + bestSize a b)) ≤
            b.length - ((bestStart a b).2 + bestSize a b) := le_trans h2 (min_le_right _ _)
        apply le_min
        · omega
        · omega

lemma cpl_eq_imp_start_zero (l : List Char) (i j : Nat) (hl : 0 < l.length)
    (h : cpl (l.drop i) (l.drop j) = l.length) : i = 0 ∧ j = 0 := by
  have h1 := cpl_le_left (l.drop i) (l.drop j)
  have h2 := cpl_le_right (l.drop i) (l.drop j)
  rw [h, List.length_drop] at h1 h2
  omega

lemma bestSize_self (l : List Char) : bestSize l l = l.length := by
  apply le_antisymm
  · rcases foldr_max_attained
        ((blockStarts l l).map (fun p => cpl (l.drop p.1) (l.drop p.2))) with h0 | hmem
    · rw [bestSize, h0]; exact Nat.zero_le _
    · rcases List.mem_map.mp hmem with ⟨p, _, hpe⟩
      rw [bestSize, ← hpe]
      exact le_trans (cpl_le_left _ _) (by rw [List.length_drop]; omega)
  · have h := cpl_drop_le_bestSize l l 0 0
    rw [List.drop_zero, cpl_self] at h
    exact h

lemma matchTotalF_succ_self (f : Nat) (l : List Char) :
    matchTotalF (f + 1) l l = l.length := by
  simp only [matchTotalF]
  by_cases hk : bestSize l l = 0
  · rw [if_pos hk]
    rw [bestSize_self] at hk
    omega
  · rw [if_neg hk]
    obtain ⟨hc, _, _⟩ := bestStart_spec l l
    rw [bestSize_self] at hc
    have hl : 0 < l.length := by
      rw [bestSize_self] at hk
      omega
    obtain ⟨hi0, hj0⟩ := cpl_eq_imp_start_zero l _ _ hl hc
    rw [hi0, hj0, bestSize_self]
    simp [matchTotalF_nil_right, List.drop_length]

lemma matchTotal_self (l : List Char) : matchTotal l l = l.length := by
  unfold matchTotal
  cases hl : l with
  | nil => rfl
  | cons c rest =>
      have : (c :: rest).length + (c :: rest).length =
          ((c :: rest).length + (c :: rest).length - 1) + 1 := by
        simp only [List.length_cons]; omega
      rw [this, matchTotalF_succ_self]

lemma matchTotalF_full (f : Nat) : ∀ a b : List Char,
    matchTotalF f a b = a.length → matchTotalF f a b = b.length → a = b := by
  induction f with
  | zero =>
      intro a b h1 h2
      simp only [matchTotalF] at h1 h2
      rw [List.length_eq_zero.mp h1.symm, List.length_eq_zero.mp h2.symm]
  | succ f ih =>
      intro a b h1 h2
      simp only [matchTotalF] at h1 h2
      by_cases hk : bestSize a b = 0
      · rw [if_pos hk] at h1 h2
        rw [List.length_eq_zero.mp h1.symm, List.length_eq_zero.mp h2.symm]
      · rw [if_neg hk] at h1 h2
        obtain ⟨hc, hi, hj⟩ := bestStart_spec a b
        have hkla : bestSize a b ≤ a.length - (bestStart a b).1 := by
          have h := cpl_le_left (a.drop (bestStart a b).1) (b.drop (bestStart a b).2)
          rw [hc, List.length_drop] at h
          exact h
        have hklb : bestSize a b ≤ b.length - (bestStart a b).2 := by
          have h := cpl_le_right (a.drop (bestStart a b).1) (b.drop (bestStart a b).2)
          rw [hc, List.length_drop] at h
          exact h
        have hL := matchTotalF_le f (a.take (bestStart a b).1) (b.take (bestStart a b).2)
        have hR := matchTotalF_le f (a.drop ((bestStart a b).1 + bestSize a b))
          (b.drop ((bestStart a b).2 + bestSize a b))
        rw [List.length_take, List.length_take] at hL
        rw [List.length_drop, List.length_drop] at hR
        have hLa : matchTotalF f (a.take (bestStart a b).1) (b.take (bestStart a b).2) ≤
            (bestStart a b).1 := le_trans hL (le_trans (min_le_left _ _) (min_le_left _ _))
        have hLb : matchTotalF f (a.take (bestStart a b).1) (b.take (bestStart a b).2) ≤
            (bestStart a b).2 := le_trans hL (le_trans (min_le_right _ _) (min_le_left _ _))
        have hRa : matchTotalF f (a.drop ((bestStart a b).1 + bestSize a b))
            (b.drop ((bestStart a b).2 + bestSize a b)) ≤
            a.length - ((bestStart a b).1 + bestSize a b) := le_trans hR (min_le_left _ _)
        have hRb : matchTotalF f (a.drop ((bestStart a b).1 + bestSize a b))
            (b.drop ((bestStart a b).2 + bestSize a b)) ≤
            b.length - ((bestStart a b).2 + bestSize a b) := le_trans hR (min_le_right _ _)
        have e1 : matchTotalF f (a.take (bestStart a b).1) (b.take (bestStart a b).2) =
            (a.take (bestStart a b).1).length := by
          rw [List.length_take]; omega
        have e1b : matchTotalF f (a.take (bestStart a b).1) (b.take (bestStart a b).2) =
            (b.take (bestStart a b).2).length := by
          rw [List.length_take]; omega
        have e2 : matchTotalF f (a.drop ((bestStart a b).1 + bestSize a b))
            (b.drop ((bestStart a b).2 + bestSize a b)) =
            (a.drop ((bestStart a b).1 + bestSize a b)).length := by
          rw [List.length_drop]; omega
        have e2b : matchTotalF f (a.drop ((bestStart a b).1 + bestSize a b))
            (b.drop ((bestStart a b).2 + bestSize a b)) =
            (b.drop ((bestStart a b).2 + bestSize a b)).length := by
          rw [List.length_drop]; omega
        have eqTake := ih _ _ e1 e1b
        have eqDrop := ih _ _ e2 e2b
        have eqMid : (a.drop (bestStart a b).1).take (bestSize a b) =
            (b.drop (bestStart a b).2).take (bestSize a b) := by
          have h := cpl_take (a.drop (bestStart a b).1) (b.drop (bestStart a b).2)
          rw [hc] at h
          exact h
        have hsplit : ∀ (x : List Char) (i : Nat),
            x = x.take i ++ ((x.drop i).take (bestSize a b) ++ x.drop (i + bestSize a b)) := by
          intro x i
          have hd : (x.drop i).drop (bestSize a b) = x.drop (i + bestSize a b) := by
            rw [List.drop_drop, Nat.add_comm]
          rw [← hd, List.take_append_drop, List.take_append_drop]
        calc a = a.take (bestStart a b).1 ++ ((a.drop (bestStart a b).1).take (bestSize a b) ++
                  a.drop ((bestStart a b).1 + bestSize a b)) := hsplit a _
          _ = b.take (bestStart a b).2 ++ ((b.drop (bestStart a b).2).take (bestSize a b) ++
                  b.drop ((bestStart a b).2 + bestSize a b)) := by
                rw [eqTake, eqMid, eqDrop]
          _ = b := (hsplit b _).symm

lemma matchTotal_le (a b : List Char) : matchTotal a b ≤ min a.length b.length :=
  matchTotalF_le _ a b

lemma matchTotal_full (a b : List Char) (h1 : matchTotal a b = a.length)
    (h2 : matchTotal a b = b.length) : a = b :=
  matchTotalF_full _ a b h1 h2

lemma cpl_nil_left (ys : List Char) : cpl [] ys = 0 := by
  cases ys <;> rfl

lemma bestSize_nil_left (b : List Char) : bestSize [] b = 0 := by
  rcases foldr_max_attained
      ((blockStarts [] b).map (fun p => cpl (List.drop p.1 []) (b.drop p.2))) with h0 | hmem
  · exact h0
  · rcases List.mem_map.mp hmem with ⟨p, _, hpe⟩
    rw [bestSize, ← hpe]
    have : List.drop p.1 ([] : List Char) = [] := List.drop_nil
    rw [this, cpl_nil_left]

lemma matchTotalF_nil_left (f : Nat) (b : List Char) : matchTotalF f [] b = 0 := by
  cases f with
  | zero => rfl
  | succ f => simp [matchTotalF, bestSize_nil_left b]

lemma ratioVal_den_pos (a b : List Char) : 0 < (ratioVal a b).den := by
  unfold ratioVal
  split
  · exact Nat.one_pos
  · rename_i h; simpa using Nat.pos_of_ne_zero h

lemma ratioVal_nonneg (a b : List Char) : 0 ≤ (ratioVal a b).toRat := by
  unfold ratioVal PyFloatVal.toRat
  split
  · norm_num
  · apply div_nonneg
    · positivity
    · positivity

lemma ratioVal_le_one (a b : List Char) : (ratioVal a b).toRat ≤ 1 := by
  unfold ratioVal PyFloatVal.toRat
  split
  · norm_num
  · rename_i h
    have hM := matchTotal_le a b
    have h2 : 2 * matchTotal a b ≤ a.length + b.length := by
      have := min_le_left a.length b.length
      have := min_le_right a.length b.length
      omega
    rw [div_le_one (by exact_mod_cast Nat.pos_of_ne_zero h)]
    dsimp only
    exact_mod_cast h2

lemma ratioVal_self (l : List Char) : (ratioVal l l).toRat = 1 := by
  unfold ratioVal PyFloatVal.toRat
  split
  · norm_num
  · rename_i h
    rw [matchTotal_self]
    have h0 : ((l.length + l.length : Nat) : Rat) ≠ 0 := by exact_mod_cast h
    rw [div_eq_one_iff_eq h0]
    push_cast
    ring

lemma ratioVal_eq_one (a b : List Char) (h : (ratioVal a b).toRat = 1) : a = b := by
  unfold ratioVal PyFloatVal.toRat at h
  by_cases h0 : a.length + b.length = 0
  · rw [List.length_eq_zero.mp (by omega : a.length = 0),
      List.length_eq_zero.mp (by omega : b.length = 0)]
  · rw [if_neg h0] at h
    simp only at h
    rw [div_eq_one_iff_eq (by exact_mod_cast h0)] at h
    have h2 : 2 * matchTotal a b = a.length + b.length := by exact_mod_cast h
    have hM := matchTotal_le a b
    have ha : matchTotal a b = a.length := by
      have := min_le_left a.length b.length
      have := min_le_right a.length b.length
      omega
    have hb : matchTotal a b = b.length := by
      have := min_le_left a.length b.length
      have := min_le_right a.length b.length
      omega
    exact matchTotal_full a b ha hb

lemma tokenBonus_den_pos (o c : String) : 0 < (tokenBonus o c).den := by
  simp only [tokenBonus]
  split
  · exact Nat.one_pos
  · rename_i h; dsimp only; omega

lemma tokenBonus_nonneg (o c : String) : 0 ≤ (tokenBonus o c).toRat := by
  simp only [tokenBonus, PyFloatVal.toRat]
  split
  · norm_num
  · dsimp only
    apply div_nonneg
    · positivity
    · positivity

lemma tokenBonus_le_self (o c : String) :
    (tokenBonus o c).toRat ≤ (tokenBonus o o).toRat := by
  by_cases h : (meaningfulTokens o).length = 0
  · unfold tokenBonus
    rw [if_pos h, if_pos h]
  · have hself : (meaningfulTokens o).filter (fun t => (token_set o).contains t) =
        meaningfulTokens o := by
      rw [List.filter_eq_self]
      intro t ht
      have hmem : t ∈ token_set o := (List.mem_filter.mp ht).1
      simpa using hmem
    have hpos : (0 : Rat) < ((5 * (meaningfulTokens o).length : Nat) : Rat) := by
      exact_mod_cast (show 0 < 5 * (meaningfulTokens o).length by omega)
    simp only [tokenBonus, PyFloatVal.toRat]
    rw [if_neg h, if_neg h]
    dsimp only
    unfold sharedCnt
    rw [hself]
    rw [div_le_div_right hpos]
    exact_mod_cast (show
      2 * ((meaningfulTokens o).filter (fun t => (token_set c).contains t)).length ≤
        2 * (meaningfulTokens o).length by
      have hle := List.length_filter_le (fun t => (token_set c).contains t)
        (meaningfulTokens o)
      omega)

lemma charRatio_den_pos (x y : String) : 0 < (charRatio x y).den :=
  ratioVal_den_pos _ _

lemma scoreV_den_pos (o ns : String) : 0 < (scoreV o ns).den :=
  fracAdd_den_pos _ _ (charRatio_den_pos _ _) (tokenBonus_den_pos _ _)

lemma scoreV_toRat (o ns : String) :
    (scoreV o ns).toRat =
      (charRatio (plower o) (plower ns)).toRat + (tokenBonus o ns).toRat :=
  fracAdd_toRat _ _ (charRatio_den_pos _ _) (tokenBonus_den_pos _ _)

lemma scoreV_self_ge_one (o : String) : 1 ≤ (scoreV o o).toRat := by
  rw [scoreV_toRat]
  have h1 : (charRatio (plower o) (plower o)).toRat = 1 := ratioVal_self _
  have h2 := tokenBonus_nonneg o o
  rw [h1]
  linarith

lemma score_ge_self_imp (o c : String)
    (h : (scoreV o o).toRat ≤ (scoreV o c).toRat) : plower c = plower o := by
  rw [scoreV_toRat, scoreV_toRat] at h
  have h1 : (charRatio (plower o) (plower o)).toRat = 1 := ratioVal_self _
  have h2 := tokenBonus_le_self o c
  have h3 := ratioVal_le_one (plower o).data (plower c).data
  have h4 : (charRatio (plower o) (plower c)).toRat = 1 := by
    unfold charRatio at *
    linarith
  have h5 := ratioVal_eq_one _ _ h4
  calc plower c = ⟨(plower c).data⟩ := rfl
    _ = ⟨(plower o).data⟩ := by rw [h5]
    _ = plower o := rfl

lemma plower_ne_nil (o : String) (h : o ≠ "") : (plower o).data ≠ [] := by
  intro hd
  apply h
  have hmap : o.data.map lowChar = [] := hd
  have hodata : o.data = [] := List.map_eq_nil.mp hmap
  calc o = ⟨o.data⟩ := rfl
    _ = ⟨[]⟩ := by rw [hodata]
    _ = "" := rfl

lemma token_set_empty : token_set "" = [] := rfl

lemma tokenBonus_toRat_empty_cand (o : String) : (tokenBonus o "").toRat = 0 := by
  have hf : sharedCnt o "" = 0 := by
    unfold sharedCnt
    rw [token_set_empty]
    simp
  simp only [tokenBonus, PyFloatVal.toRat]
  rw [hf]
  split
  · norm_num
  · dsimp only
    norm_num

lemma scoreV_empty_cand (o : String) (h : o ≠ "") : (scoreV o "").toRat = 0 := by
  rw [scoreV_toRat, tokenBonus_toRat_empty_cand]
  have hp : plower "" = "" := rfl
  rw [hp]
  have hml : matchTotal (plower o).data ("" : String).data = 0 := by
    have hd : ("" : String).data = [] := rfl
    rw [hd]
    unfold matchTotal
    exact matchTotalF_nil_right _ _
  have hne : ¬ ((plower o).data.length + ("" : String).data.length = 0) := by
    have hd : ("" : String).data = [] := rfl
    rw [hd]
    simp only [List.length_nil, Nat.add_zero]
    intro h0
    exact plower_ne_nil o h (List.length_eq_zero.mp h0)
  unfold charRatio ratioVal PyFloatVal.toRat
  rw [if_neg hne]
  dsimp only
  simp only [hml]
  norm_num

lemma specMax_den_pos (l : List PyFloatVal) (h : ∀ x ∈ l, 0 < x.den) :
    0 < (specMax l).den := by
  induction l with
  | nil => exact Nat.one_pos
  | cons a rest ih =>
      simp only [specMax, List.foldr_cons]
      split
      · exact h a (List.mem_cons_self a rest)
      · exact ih (fun x hx => h x (List.mem_cons_of_mem a hx))

lemma specMax_ge (l : List PyFloatVal) (h : ∀ x ∈ l, 0 < x.den) :
    ∀ x ∈ l, x.toRat ≤ (specMax l).toRat := by
  induction l with
  | nil => intro x hx; simp at hx
  | cons a rest ih =>
      intro x hx
      have hrest : ∀ y ∈ rest, 0 < y.den := fun y hy => h y (List.mem_cons_of_mem a hy)
      have hrden : 0 < (specMax rest).den := specMax_den_pos rest hrest
      have haden : 0 < a.den := h a (List.mem_cons_self a rest)
      have hstep : specMax (a :: rest) =
          if PyFloatVal.lt (specMax rest) a then a else specMax rest := rfl
      rcases List.mem_cons.mp hx with hxa | hxr
      · subst hxa
        rw [hstep]
        split
        · exact le_refl _
        · rename_i hlt
          rw [toRat_lt_iff _ _ hrden haden] at hlt
          linarith [le_of_not_lt hlt]
      · have hx1 := ih hrest x hxr
        rw [hstep]
        split
        · rename_i hlt
          rw [toRat_lt_iff _ _ hrden haden] at hlt
          linarith
        · exact hx1

lemma specMax_cases (l : List PyFloatVal) :
    specMax l = ⟨-1, 1⟩ ∨ specMax l ∈ l := by
  induction l with
  | nil => exact Or.inl rfl
  | cons a rest ih =>
      have hstep : specMax (a :: rest) =
          if PyFloatVal.lt (specMax rest) a then a else specMax rest := rfl
      rw [hstep]
      split
      · exact Or.inr (List.mem_cons_self a rest)
      · rcases ih with h0 | hmem
        · exact Or.inl h0
        · exact Or.inr (List.mem_cons_of_mem a hmem)

/-- The running maximum of the valid (non-empty-stripped) candidate
scores, seeded with `r` (proof-side value abstraction of `bmFold`). -/
def vmax (o : String) : List String → Rat → Rat
  | [], r => r
  | n :: rest, r =>
      vmax o rest (if pstrip n = "" then r else max (scoreV o (pstrip n)).toRat r)

lemma bmFold_den_pos (o : String) : ∀ (l : List String) (st : PyFloatVal × String),
    0 < st.1.den → 0 < (bmFold o l st).1.den := by
  intro l
  induction l with
  | nil => intro st h; exact h
  | cons n rest ih =>
      intro st h
      simp only [bmFold]
      split
      · exact ih st h
      · split
        · exact ih _ (scoreV_den_pos o (pstrip n))
        · exact ih st h

lemma bmFold_val (o : String) : ∀ (l : List String) (st : PyFloatVal × String),
    0 < st.1.den → (bmFold o l st).1.toRat = vmax o l st.1.toRat := by
  intro l
  induction l with
  | nil => intro st h; rfl
  | cons n rest ih =>
      intro st h
      simp only [bmFold, vmax]
      by_cases hns : pstrip n = ""
      · rw [if_pos hns, if_pos hns]
        exact ih st h
      · rw [if_neg hns, if_neg hns]
        by_cases hlt : PyFloatVal.lt st.1 (scoreV o (pstrip n))
        · rw [if_pos hlt]
          rw [ih _ (scoreV_den_pos o (pstrip n))]
          have hr := (toRat_lt_iff st.1 (scoreV o (pstrip n)) h
            (scoreV_den_pos o (pstrip n))).mp hlt
          rw [max_eq_left (le_of_lt hr)]
        · rw [if_neg hlt]
          rw [ih st h]
          have hnlt : ¬ st.1.toRat < (scoreV o (pstrip n)).toRat := fun hc =>
            hlt ((toRat_lt_iff _ _ h (scoreV_den_pos o (pstrip n))).mpr hc)
          rw [max_eq_right (le_of_not_lt hnlt)]

lemma le_vmax (o : String) : ∀ (l : List String) (r : Rat), r ≤ vmax o l r := by
  intro l
  induction l with
  | nil => intro r; exact le_refl r
  | cons n rest ih =>
      intro r
      simp only [vmax]
      split
      · exact ih r
      · exact le_trans (le_max_right _ _) (ih _)

lemma score_le_vmax (o : String) : ∀ (l : List String) (r : Rat) (n : String),
    n ∈ l → pstrip n ≠ "" → (scoreV o (pstrip n)).toRat ≤ vmax o l r := by
  intro l
  induction l with
  | nil => intro r n h; simp at h
  | cons m rest ih =>
      intro r n hmem hns
      rcases List.mem_cons.mp hmem with he | he
      · subst he
        simp only [vmax]
        rw [if_neg hns]
        exact le_trans (le_max_left _ _) (le_vmax o rest _)
      · simp only [vmax]
        split
        · exact ih _ n he hns
        · exact ih _ n he hns

lemma bmFold_res_cases (o : String) : ∀ (l : List String) (st : PyFloatVal × String),
    bmFold o l st = st ∨
      ∃ n ∈ l, pstrip n ≠ "" ∧ bmFold o l st = (scoreV o (pstrip n), pstrip n) := by
  intro l
  induction l with
  | nil => intro st; exact Or.inl rfl
  | cons n rest ih =>
      intro st
      simp only [bmFold]
      by_cases hns : pstrip n = ""
      · rw [if_pos hns]
        rcases ih st with h | ⟨m, hm, hmne, he⟩
        · exact Or.inl h
        · exact Or.inr ⟨m, List.mem_cons_of_mem n hm, hmne, he⟩
      · rw [if_neg hns]
        by_cases hlt : PyFloatVal.lt st.1 (scoreV o (pstrip n))
        · rw [if_pos hlt]
          rcases ih (scoreV o (pstrip n), pstrip n) with h | ⟨m, hm, hmne, he⟩
          · exact Or.inr ⟨n, List.mem_cons_self n rest, hns, h⟩
          · exact Or.inr ⟨m, List.mem_cons_of_mem n hm, hmne, he⟩
        · rw [if_neg hlt]
          rcases ih st with h | ⟨m, hm, hmne, he⟩
          · exact Or.inl h
          · exact Or.inr ⟨m, List.mem_cons_of_mem n hm, hmne, he⟩

lemma bmFold_unchanged (o : String) : ∀ (l : List String) (st : PyFloatVal × String),
    0 < st.1.den →
    (∀ n ∈ l, pstrip n ≠ "" → (scoreV o (pstrip n)).toRat ≤ st.1.toRat) →
    bmFold o l st = st := by
  intro l
  induction l with
  | nil => intro st _ _; rfl
  | cons n rest ih =>
      intro st hden hall
      simp only [bmFold]
      by_cases hns : pstrip n = ""
      · rw [if_pos hns]
        exact ih st hden (fun m hm => hall m (List.mem_cons_of_mem n hm))
      · rw [if_neg hns]
        have hle := hall n (List.mem_cons_self n rest) hns
        have hnlt : ¬ PyFloatVal.lt st.1 (scoreV o (pstrip n)) := by
          intro hc
          have hr := (toRat_lt_iff _ _ hden (scoreV_den_pos o (pstrip n))).mp hc
          linarith
        rw [if_neg hnlt]
        exact ih st hden (fun m hm => hall m (List.mem_cons_of_mem n hm))

lemma find?_cons_pos {α : Type} (p : α → Bool) (a : α) (l : List α) (h : p a = true) :
    (a :: l).find? p = some a := by
  simp [List.find?_cons, h]

lemma find?_cons_neg {α : Type} (p : α → Bool) (a : α) (l : List α) (h : p a = false) :
    (a :: l).find? p = l.find? p := by
  simp [List.find?_cons, h]

lemma bmFold_first (o : String) : ∀ (l : List String) (st : PyFloatVal × String),
    0 < st.1.den →
    ∀ M nm, bmFold o l st = (M, nm) →
    st.1.toRat < M.toRat →
    (scoreV o "").toRat < M.toRat →
    ∃ n, l.find? (fun n => decide (M.toRat ≤ (scoreV o (pstrip n)).toRat)) = some n ∧
      pstrip n ≠ "" ∧ nm = pstrip n ∧ M = scoreV o (pstrip n) := by
  intro l
  induction l with
  | nil =>
      intro st hden M nm heq hlt hz
      have h1 : st.1 = M := by rw [show bmFold o [] st = st from rfl] at heq; rw [heq]
      rw [h1] at hlt
      exact absurd hlt (lt_irrefl _)
  | cons n rest ih =>
      intro st hden M nm heq hlt hz
      simp only [bmFold] at heq
      by_cases hns : pstrip n = ""
      · rw [if_pos hns] at heq
        have hpf : (fun n => decide (M.toRat ≤ (scoreV o (pstrip n)).toRat)) n = false := by
          show decide (M.toRat ≤ (scoreV o (pstrip n)).toRat) = false
          rw [hns]
          exact decide_eq_false (not_le.mpr hz)
        rw [find?_cons_neg _ n rest hpf]
        exact ih st hden M nm heq hlt hz
      · rw [if_neg hns] at heq
        by_cases hlt2 : PyFloatVal.lt st.1 (scoreV o (pstrip n))
        · rw [if_pos hlt2] at heq
          have hsden : 0 < (scoreV o (pstrip n)).den := scoreV_den_pos o (pstrip n)
          have hMval : (bmFold o rest ((scoreV o (pstrip n)), pstrip n)).1 = M := by
            rw [heq]
          have hge : (scoreV o (pstrip n)).toRat ≤ M.toRat := by
            rw [← hMval, bmFold_val o rest (scoreV o (pstrip n), pstrip n) hsden]
            exact le_vmax o rest _
          rcases lt_or_eq_of_le hge with hsc | hsc
          · have hpf : (fun n => decide (M.toRat ≤ (scoreV o (pstrip n)).toRat)) n
                = false := by
              show decide (M.toRat ≤ (scoreV o (pstrip n)).toRat) = false
              exact decide_eq_false (not_le.mpr hsc)
            rw [find?_cons_neg _ n rest hpf]
            exact ih _ hsden M nm heq hsc hz
          · have hall : ∀ m ∈ rest, pstrip m ≠ "" →
                (scoreV o (pstrip m)).toRat ≤ (scoreV o (pstrip n)).toRat := by
              intro m hm hmne
              have h1 := score_le_vmax o rest (scoreV o (pstrip n)).toRat m hm hmne
              rw [← bmFold_val o rest (scoreV o (pstrip n), pstrip n) hsden] at h1
              rw [hMval, ← hsc] at h1
              exact h1
            have hunch := bmFold_unchanged o rest (scoreV o (pstrip n), pstrip n)
              hsden hall
            rw [hunch] at heq
            have hM : scoreV o (pstrip n) = M := congrArg Prod.fst heq
            have hnm : pstrip n = nm := congrArg Prod.snd heq
            have hpt : (fun n => decide (M.toRat ≤ (scoreV o (pstrip n)).toRat)) n
                = true := by
              show decide (M.toRat ≤ (scoreV o (pstrip n)).toRat) = true
              rw [← hM]
              exact decide_eq_true (le_refl _)
            rw [find?_cons_pos _ n rest hpt]
            exact ⟨n, rfl, hns, hnm.symm, hM.symm⟩
        · rw [if_neg hlt2] at heq
          have hsle : (scoreV o (pstrip n)).toRat ≤ st.1.toRat := by
            by_contra hc
            exact hlt2 ((toRat_lt_iff _ _ hden (scoreV_den_pos o (pstrip n))).mpr
              (not_le.mp hc))
          have hpf : (fun n => decide (M.toRat ≤ (scoreV o (pstrip n)).toRat)) n
              = false := by
            show decide (M.toRat ≤ (scoreV o (pstrip n)).toRat) = false
            exact decide_eq_false (not_le.mpr (lt_of_le_of_lt hsle hlt))
          rw [find?_cons_neg _ n rest hpf]
          exact ih st hden M nm heq hlt hz

lemma find?_congr_pred {α : Type} (p q : α → Bool) :
    ∀ l : List α, (∀ a ∈ l, p a = q a) → l.find? p = l.find? q := by
  intro l
  induction l with
  | nil => intro h; rfl
  | cons a rest ih =>
      intro h
      have ha := h a (List.mem_cons_self a rest)
      by_cases hp : p a = true
      · rw [find?_cons_pos p a rest hp, find?_cons_pos q a rest (by rw [← ha]; exact hp)]
      · have hp' : p a = false := by
          cases hb : p a
          · rfl
          · exact absurd hb hp
        rw [find?_cons_neg p a rest hp', find?_cons_neg q a rest (by rw [← ha]; exact hp')]
        exact ih (fun x hx => h x (List.mem_cons_of_mem a hx))

lemma zip_map_find (f : String → PyFloatVal) (pred : String × PyFloatVal → Bool) :
    ∀ l : List String,
      (l.zip (l.map f)).find? pred =
        (l.find? (fun n => pred (n, f n))).map (fun n => (n, f n)) := by
  intro l
  induction l with
  | nil => rfl
  | cons n rest ih =>
      simp only [List.map_cons, List.zip_cons_cons]
      by_cases hp : pred (n, f n) = true
      · rw [find?_cons_pos pred (n, f n) _ hp,
          find?_cons_pos (fun n => pred (n, f n)) n rest (by simpa using hp)]
        rfl
      · have hp' : pred (n, f n) = false := by
          cases hb : pred (n, f n)
          · rfl
          · exact absurd hb hp
        rw [find?_cons_neg pred (n, f n) _ hp',
          find?_cons_neg (fun n => pred (n, f n)) n rest (by simpa using hp')]
        exact ih

lemma mem_zip_map (f : String → PyFloatVal) :
    ∀ (l : List String) (p : String × PyFloatVal),
      p ∈ l.zip (l.map f) → p.1 ∈ l ∧ p.2 = f p.1 := by
  intro l
  induction l with
  | nil => intro p hp; simp at hp
  | cons n rest ih =>
      intro p hp
      simp only [List.map_cons, List.zip_cons_cons, List.mem_cons] at hp
      rcases hp with he | hm
      · subst he; exact ⟨List.mem_cons_self n rest, rfl⟩
      · obtain ⟨h1, h2⟩ := ih p hm
        exact ⟨List.mem_cons_of_mem n h1, h2⟩

lemma tokenBonus_empty_orig (c : String) : (tokenBonus "" c).toRat = 0 := by
  have hm : (meaningfulTokens "").length = 0 := by
    rw [meaningfulTokens, token_set_empty]
    rfl
  simp only [tokenBonus, PyFloatVal.toRat]
  rw [if_pos hm]
  norm_num

lemma scoreV_empty_orig (ns : String) (h : ns ≠ "") : (scoreV "" ns).toRat = 0 := by
  rw [scoreV_toRat, tokenBonus_empty_orig]
  have hp : plower "" = "" := rfl
  rw [hp]
  have hml : matchTotal ("" : String).data (plower ns).data = 0 := by
    have hd : ("" : String).data = [] := rfl
    rw [hd]
    unfold matchTotal
    exact matchTotalF_nil_left _ _
  have hne : ¬ (("" : String).data.length + (plower ns).data.length = 0) := by
    have hd : ("" : String).data = [] := rfl
    rw [hd]
    simp only [List.length_nil, Nat.zero_add]
    intro h0
    exact plower_ne_nil ns h (List.length_eq_zero.mp h0)
  unfold charRatio ratioVal PyFloatVal.toRat
  rw [if_neg hne]
  dsimp only
  simp only [hml]
  norm_num

lemma le_threshold_iff (m : PyFloatVal) (hden : 0 < m.den) :
    PyFloatVal.le ⟨3, 10⟩ m ↔ (3 : Rat) / 10 ≤ m.toRat := by
  rw [toRat_le_iff ⟨3, 10⟩ m (by norm_num) hden]
  have h310 : (⟨3, 10⟩ : PyFloatVal).toRat = (3 : Rat) / 10 := by
    unfold PyFloatVal.toRat
    norm_num
  rw [h310]

lemma init_toRat : ((⟨-1, 1⟩ : PyFloatVal)).toRat = -1 := by
  unfold PyFloatVal.toRat
  norm_num

lemma bestMatchSpec_strip_empty (orig : String) (names : List String)
    (ho : pstrip orig = "") : bestMatchSpec orig names = "" := by
  simp only [bestMatchSpec]
  rw [ho]
  split
  · rename_i p heqp
    have hmem := List.mem_of_find?_eq_some heqp
    obtain ⟨hp1, hp2⟩ := mem_zip_map (fun n => scoreV "" (pstrip n)) names p hmem
    by_cases hps : pstrip p.1 = ""
    · rw [hps]
      exact ite_self ""
    · have hpred := List.find?_some heqp
      simp only [decide_eq_true_eq] at hpred
      have hdenS : ∀ x ∈ names.map (fun n => scoreV "" (pstrip n)), 0 < x.den := by
        intro x hx
        rcases List.mem_map.mp hx with ⟨n, _, he⟩
        rw [← he]
        exact scoreV_den_pos _ _
      have hdm : 0 < (specMax (names.map (fun n => scoreV "" (pstrip n)))).den :=
        specMax_den_pos _ hdenS
      have hsc : (p.2).toRat = 0 := by
        rw [hp2]
        exact scoreV_empty_orig _ hps
      have hmle : (specMax (names.map (fun n => scoreV "" (pstrip n)))).toRat ≤ 0 := by
        have hnlt : ¬ (p.2).toRat <
            (specMax (names.map (fun n => scoreV "" (pstrip n)))).toRat := by
          intro hc
          exact hpred ((toRat_lt_iff _ _ (by rw [hp2]; exact scoreV_den_pos _ _) hdm).mpr hc)
        rw [hsc] at hnlt
        exact le_of_not_lt hnlt
      rw [if_neg (by
        rw [le_threshold_iff _ hdm]
        intro hc
        linarith)]
  · rfl

lemma best_match_eq_spec (orig : String) (names : List String) :
    best_match_cost_type orig names = bestMatchSpec orig names := by
  by_cases hn : names = []
  · subst hn
    simp only [best_match_cost_type]
    rw [if_pos (Or.inr trivial)]
    rfl
  · by_cases ho : pstrip orig = ""
    · rw [bestMatchSpec_strip_empty orig names ho]
      by_cases horig : orig = ""
      · simp only [best_match_cost_type]
        rw [if_pos (Or.inl horig)]
      · simp only [best_match_cost_type]
        rw [if_neg (by push_neg; exact ⟨horig, hn⟩), if_pos ho]
    · have horig : orig ≠ "" := fun hc => ho (by rw [hc]; rfl)
      simp only [best_match_cost_type, bestMatchSpec]
      rw [if_neg (by push_neg; exact ⟨horig, hn⟩), if_neg ho]
      set o := pstrip orig with hodef
      set f : String → PyFloatVal := fun n => scoreV o (pstrip n) with hfdef
      set scores := names.map f with hscoresdef
      set m := specMax scores with hmdef
      set stf := bmFold o names (⟨-1, 1⟩, "") with hstfdef
      have hdenstf : 0 < stf.1.den := bmFold_den_pos o names (⟨-1, 1⟩, "") Nat.one_pos
      have hval : stf.1.toRat = vmax o names (-1) := by
        rw [hstfdef, bmFold_val o names (⟨-1, 1⟩, "") Nat.one_pos]
        dsimp only
        rw [init_toRat]
      have hdenscores : ∀ x ∈ scores, 0 < x.den := by
        intro x hx
        rw [hscoresdef] at hx
        rcases List.mem_map.mp hx with ⟨n, _, he⟩
        rw [← he]
        exact scoreV_den_pos _ _
      have hdenm : 0 < m.den := by
        rw [hmdef]
        exact specMax_den_pos scores hdenscores
      have hdir1 : PyFloatVal.le ⟨3, 10⟩ stf.1 → (3 : Rat) / 10 ≤ m.toRat := by
        intro h
        rw [le_threshold_iff stf.1 hdenstf] at h
        rcases bmFold_res_cases o names (⟨-1, 1⟩, "") with hcase | ⟨n, hnm, hnne, hcase⟩
        · exfalso
          have hstv : stf.1.toRat = -1 := by
            rw [hstfdef, hcase]
            exact init_toRat
          rw [hstv] at h
          norm_num at h
        · have hst1 : stf.1 = scoreV o (pstrip n) := by rw [hstfdef, hcase]
          have hmem : scoreV o (pstrip n) ∈ scores := by
            rw [hscoresdef]
            exact List.mem_map_of_mem f hnm
          have hle := specMax_ge scores hdenscores _ hmem
          rw [hst1] at h
          rw [hmdef]
          linarith
      have hdir2 : (3 : Rat) / 10 ≤ m.toRat → (3 : Rat) / 10 ≤ stf.1.toRat := by
        intro h
        rcases specMax_cases scores with hc | hc
        · rw [← hmdef] at hc
          rw [hc, init_toRat] at h
          norm_num at h
        · rw [← hmdef] at hc
          rw [hscoresdef] at hc
          rcases List.mem_map.mp hc with ⟨n, hnm, he⟩
          by_cases hnne : pstrip n = ""
          · have h0 : m.toRat = 0 := by
              rw [← he]
              show (scoreV o (pstrip n)).toRat = 0
              rw [hnne]
              exact scoreV_empty_cand o ho
            rw [h0] at h
            norm_num at h
          · have hle := score_le_vmax o names (-1) n hnm hnne
            rw [← hval] at hle
            have hmv : m.toRat ≤ stf.1.toRat := by
              rw [← he]
              exact hle
            linarith
      by_cases hth : PyFloatVal.le ⟨3, 10⟩ stf.1
      · rw [if_pos hth]
        have hm310 := hdir1 hth
        have hmle : PyFloatVal.le ⟨3, 10⟩ m := (le_threshold_iff m hdenm).mpr hm310
        have hstf310 : (3 : Rat) / 10 ≤ stf.1.toRat := (le_threshold_iff stf.1 hdenstf).mp hth
        have hv1 : stf.1.toRat ≤ m.toRat := by
          rcases bmFold_res_cases o names (⟨-1, 1⟩, "") with hcase | ⟨n, hnm, hnne, hcase⟩
          · exfalso
            have hstv : stf.1.toRat = -1 := by
              rw [hstfdef, hcase]
              exact init_toRat
            rw [hstv] at hstf310
            norm_num at hstf310
          · have hst1 : stf.1 = scoreV o (pstrip n) := by rw [hstfdef, hcase]
            rw [hst1, hmdef]
            exact specMax_ge scores hdenscores _ (by
              rw [hscoresdef]
              exact List.mem_map_of_mem f hnm)
        have hv2 : m.toRat ≤ stf.1.toRat := by
          rcases specMax_cases scores with hc | hc
          · rw [← hmdef] at hc
            rw [hc, init_toRat]
            linarith
          · rw [← hmdef, hscoresdef] at hc
            rcases List.mem_map.mp hc with ⟨n, hnm, he⟩
            by_cases hnne : pstrip n = ""
            · have h0 : m.toRat = 0 := by
                rw [← he]
                show (scoreV o (pstrip n)).toRat = 0
                rw [hnne]
                exact scoreV_empty_cand o ho
              rw [h0]
              linarith
            · have hle := score_le_vmax o names (-1) n hnm hnne
              rw [← hval] at hle
              rw [← he]
              exact hle
        have hMm : m.toRat = stf.1.toRat := le_antisymm hv2 hv1
        obtain ⟨n0, hfind, hn0ne, hnm0, hM0⟩ := bmFold_first o names (⟨-1, 1⟩, "")
          Nat.one_pos stf.1 stf.2 rfl
          (by
            dsimp only
            rw [init_toRat]
            linarith)
          (by
            rw [scoreV_empty_cand o ho]
            linarith)
        have hpredeq : ∀ n ∈ names, (fun n => decide (¬ PyFloatVal.lt (f n) m)) n =
            (fun n => decide (stf.1.toRat ≤ (scoreV o (pstrip n)).toRat)) n := by
          intro n hnmem
          show decide (¬ PyFloatVal.lt (f n) m) =
            decide (stf.1.toRat ≤ (scoreV o (pstrip n)).toRat)
          rw [decide_eq_decide]
          have hfd : f n = scoreV o (pstrip n) := rfl
          rw [hfd, toRat_lt_iff (scoreV o (pstrip n)) m (scoreV_den_pos o (pstrip n)) hdenm,
            not_lt, hMm]
        have hchain : (names.zip scores).find?
            (fun p => decide (¬ PyFloatVal.lt p.2 m)) = some (n0, f n0) := by
          rw [hscoresdef]
          rw [zip_map_find f (fun p => decide (¬ PyFloatVal.lt p.2 m)) names]
          rw [find?_congr_pred (fun n => decide (¬ PyFloatVal.lt (f n) m))
            (fun n => decide (stf.1.toRat ≤ (scoreV o (pstrip n)).toRat)) names hpredeq]
          rw [hfind]
          rfl
        split
        · rename_i p heqp
          rw [heqp] at hchain
          have hp := Option.some.inj hchain
          rw [hp]
          rw [if_pos hmle]
          dsimp only
          exact hnm0
        · rename_i heqp
          exfalso
          rw [heqp] at hchain
          exact Option.noConfusion hchain
      · rw [if_neg hth]
        have hmnle : ¬ PyFloatVal.le ⟨3, 10⟩ m := by
          intro hc
          exact hth ((le_threshold_iff stf.1 hdenstf).mpr
            (hdir2 ((le_threshold_iff m hdenm).mp hc)))
        split
        · rename_i p heqp
          rw [if_neg hmnle]
        · rfl

lemma best_match_self_lower (name : String) (names : List String)
    (h1 : pstrip name ≠ "") (h2 : name ∈ names) :
    plower (best_match_cost_type name names) = plower (pstrip name) := by
  have horig : name ≠ "" := fun hc => h1 (by rw [hc]; rfl)
  have hn : names ≠ [] := List.ne_nil_of_mem h2
  simp only [best_match_cost_type]
  rw [if_neg (by push_neg; exact ⟨horig, hn⟩), if_neg h1]
  set o := pstrip name with hodef
  set stf := bmFold o names (⟨-1, 1⟩, "") with hstfdef
  have hdenstf : 0 < stf.1.den := bmFold_den_pos o names (⟨-1, 1⟩, "") Nat.one_pos
  have hval : stf.1.toRat = vmax o names (-1) := by
    rw [hstfdef, bmFold_val o names (⟨-1, 1⟩, "") Nat.one_pos]
    dsimp only
    rw [init_toRat]
  have hself : (scoreV o o).toRat ≤ stf.1.toRat := by
    rw [hval]
    exact score_le_vmax o names (-1) name h2 h1
  have hge1 : (1 : Rat) ≤ stf.1.toRat := le_trans (scoreV_self_ge_one o) hself
  have hth : PyFloatVal.le ⟨3, 10⟩ stf.1 :=
    (le_threshold_iff stf.1 hdenstf).mpr (by linarith)
  rw [if_pos hth]
  rcases bmFold_res_cases o names (⟨-1, 1⟩, "") with hcase | ⟨n, hnm, hnne, hcase⟩
  · exfalso
    have hstv : stf.1.toRat = -1 := by
      rw [hstfdef, hcase]
      exact init_toRat
    rw [hstv] at hge1
    norm_num at hge1
  · have h21 : stf.1 = scoreV o (pstrip n) := by rw [hstfdef, hcase]
    have h22 : stf.2 = pstrip n := by rw [hstfdef, hcase]
    have hle : (scoreV o o).toRat ≤ (scoreV o (pstrip n)).toRat := by
      rw [← h21]
      exact hself
    have hpl := score_ge_self_imp o (pstrip n) hle
    rw [h22]
    exact hpl

end Rates

/-- C3 counterexample: the claim orders an empty zone label before every
numeric one, and any letter-bearing suffix after every numeric one; but
the code gives the empty label key (1, 0), which sorts after the numeric
key (0, 1) of "Zone 1", and the letter-bearing suffix "1e5" parses as a
float, so "Zone 1e5" sorts before the numeric "Zone 200000". -/
theorem C3_zone_sort_counterexample :
    Rates.keyLt (Rates.zone_sort_key "Zone 1") (Rates.zone_sort_key "") ∧
    ¬ Rates.keyLt (Rates.zone_sort_key "") (Rates.zone_sort_key "Zone 1") ∧
    Rates.zone_has_letters "Zone 1e5" = true ∧
    Rates.keyLt (Rates.zone_sort_key "Zone 1e5") (Rates.zone_sort_key "Zone 200000") := by
  refine ⟨?_, ?_, ?_, ?_⟩ <;> decide

/-- C3 (amended): in the lane sort key, a zone label whose suffix parses
as a Python float orders ascending by numeric value; every label whose
suffix does not parse (letter-bearing or not, including the empty label)
orders after every float-parsing one; the empty label and every
non-parsing letter-bearing label share the tied key (1, 0); and concretely
"Zone 1" < "Zone 2" < "Zone 10" < "Zone A". -/
theorem C3_zone_sort_amended :
    (∀ a b x y, Rates.pyFloat (Rates.zoneSuffix a) = some x →
      Rates.pyFloat (Rates.zoneSuffix b) = some y → Rates.PyFloatVal.lt x y →
      Rates.keyLt (Rates.zone_sort_key a) (Rates.zone_sort_key b)) ∧
    (∀ a b x, Rates.pyFloat (Rates.zoneSuffix a) = some x →
      Rates.pyFloat (Rates.zoneSuffix b) = none →
      Rates.keyLt (Rates.zone_sort_key a) (Rates.zone_sort_key b)) ∧
    (∀ b, Rates.pstrip b = "" → Rates.zone_sort_key b = Rates.key10) ∧
    (∀ b, Rates.pyFloat (Rates.zoneSuffix b) = none → Rates.zone_has_letters b = true →
      Rates.zone_sort_key b = Rates.key10) ∧
    (Rates.keyLt (Rates.zone_sort_key "Zone 1") (Rates.zone_sort_key "Zone 2") ∧
     Rates.keyLt (Rates.zone_sort_key "Zone 2") (Rates.zone_sort_key "Zone 10") ∧
     Rates.keyLt (Rates.zone_sort_key "Zone 10") (Rates.zone_sort_key "Zone A")) := by
  have hkey : ∀ a x, Rates.pyFloat (Rates.zoneSuffix a) = some x →
      Rates.zone_sort_key a = (0, x) := by
    intro a x hx
    unfold Rates.zone_sort_key
    have hne : ¬ Rates.pstrip a = "" := by
      intro h
      have : Rates.zoneSuffix a = "" := by
        unfold Rates.zoneSuffix
        rw [h]
        rfl
      rw [this, Rates.pyFloat_empty] at hx
      exact Option.noConfusion hx
    rw [if_neg hne, hx]
  refine ⟨?_, ?_, ?_, ?_, by decide, by decide, by decide⟩
  · intro a b x y hx hy hxy
    rw [hkey a x hx, hkey b y hy]
    exact Or.inr ⟨rfl, hxy⟩
  · intro a b x hx hb
    rw [hkey a x hx]
    unfold Rates.zone_sort_key
    by_cases hsb : Rates.pstrip b = ""
    · rw [if_pos hsb]; exact Or.inl Nat.zero_lt_one
    · rw [if_neg hsb, hb]
      cases hzl : Rates.zone_has_letters b <;>
        simp [hzl, Rates.key10, Rates.key11, Rates.keyLt]
  · intro b hb
    unfold Rates.zone_sort_key
    rw [if_pos hb]
  · intro b hb hl
    unfold Rates.zone_sort_key
    by_cases hsb : Rates.pstrip b = ""
    · rw [if_pos hsb]
    · rw [if_neg hsb, hb]
      simp [hl]

/-- Witness for the amended C3 theorem at concrete inputs: "Zone 1"
before "Zone 2" by the numeric clause, "Zone 10" before "Zone A" by the
non-parsing clause, and "Zone A" has the letter key (1, 0). -/
theorem C3_zone_sort_witness :
    Rates.keyLt (Rates.zone_sort_key "Zone 1") (Rates.zone_sort_key "Zone 2") ∧
    Rates.keyLt (Rates.zone_sort_key "Zone 10") (Rates.zone_sort_key "Zone A") ∧
    Rates.zone_sort_key "Zone A" = Rates.key10 :=
  ⟨C3_zone_sort_amended.1 "Zone 1" "Zone 2" ⟨1, 1⟩ ⟨2, 1⟩ (by decide) (by decide) (by decide),
   C3_zone_sort_amended.2.1 "Zone 10" "Zone A" ⟨10, 1⟩ (by decide) (by decide),
   C3_zone_sort_amended.2.2.2.1 "Zone A" (by decide) (by decide)⟩

/-- C10: the forward-fill pass (`fill_null_service_types`, run between
segmentation and matrix building in `run_pipeline`) keeps the section list
length, gives each section whose `service_type` is null the `service_type`
of the nearest preceding section with a non-null one (sections preceding
every non-null keep null) while leaving every other field unchanged, and
returns exactly the number of sections it modified. -/
theorem C10_fill_service_types (mcs : List Rates.RateCard) :
    (Rates.fill_null_service_types mcs).1.length = mcs.length ∧
    (∀ i, (Rates.fill_null_service_types mcs).1[i]? =
      (mcs[i]?).map (fun sec => Rates.filledWith sec (Rates.nearestPrevService mcs i))) ∧
    (Rates.fill_null_service_types mcs).2 =
      ((mcs.zip (Rates.fill_null_service_types mcs).1).filter (fun p => p.1 ≠ p.2)).length := by
  unfold Rates.fill_null_service_types
  by_cases he : mcs.isEmpty
  · rw [if_pos he]
    rcases mcs with _ | ⟨sec, rest⟩
    · refine ⟨rfl, ?_, rfl⟩
      intro i; simp
    · simp at he
  · rw [if_neg he]
    refine ⟨Rates.fillAux_len none mcs, ?_, Rates.fillAux_cnt none mcs⟩
    intro i
    have := Rates.fillAux_get none mcs i
    simpa [Rates.nearestPrevService] using this

/-- C9: the country-code resolver tries, first hit winning: exact match,
uppercased match, then each rewrite variant (republic rewrites, " And " to
" & ", " & " to " And ", then the people's-republic suffix-stripped forms)
each tested exact then uppercased; it returns the empty string when no
variant matches; and a code value containing a comma is truncated at load
time to the (stripped) text before the first comma, so no stored code
contains a comma. -/
theorem C9_country_code_resolution (country : String) (m : List (String × String))
    (lines : List String) (e : String × String)
    (he : e ∈ Rates.load_country_codes lines) :
    Rates.country_to_code country m = Rates.resolveSpec country m ∧
    ',' ∉ e.2.data := by
  constructor
  · unfold Rates.country_to_code Rates.resolveSpec
    by_cases hs : Rates.pstrip country = ""
    · rw [if_pos hs, if_pos hs]
    · rw [if_neg hs, if_neg hs]
      unfold Rates.candidateList
      rcases h1 : Rates.dictGet m (Rates.pstrip country) with _ | c
      · rcases h2 : Rates.dictGet m (Rates.pupper (Rates.pstrip country)) with _ | c
        · rw [Rates.tryVariants_eq_firstHit]
          simp only [Rates.firstHit, h1, h2]
        · simp only [Rates.firstHit, h1, h2, Option.getD_some]
      · simp only [Rates.firstHit, h1, Option.getD_some]
  · exact Rates.load_no_comma lines e he

/-- Witness for C9 at a concrete input: resolving "China, Peoples
Republic" against a table containing only "China" goes through the
suffix-stripping variant, and the entry loaded from "China\tCN,CHN" stores
the comma-truncated code. -/
theorem C9_country_code_resolution_witness :
    Rates.country_to_code "China, Peoples Republic" [("China", "CN")] =
      Rates.resolveSpec "China, Peoples Republic" [("China", "CN")] ∧
    ',' ∉ ("China", "CN").2.data :=
  C9_country_code_resolution "China, Peoples Republic" [("China", "CN")]
    ["China\tCN,CHN"] ("China", "CN") (by decide)

/-- C1: every rate-card section emitted by the Section Segmenter
(`process_main_costs`) has at least one price row; a current section with
empty pricing is dropped both when the next header appears and at the end
of input, so a section with empty pricing never appears in the output. -/
theorem C1_sections_have_pricing (items : List Rates.MCItem)
    (rc : Rates.RateCard) (h : rc ∈ Rates.process_main_costs items) :
    rc.pricing ≠ [] := by
  unfold Rates.process_main_costs at h
  have base := Rates.mcFold_preserves items ([], none) (by intro rc hrc; simp at hrc)
  exact Rates.flushCards_preserves _ _ base rc h

/-- Concrete input for the C1 witness: one header row and one data row. -/
def c1Items : List Rates.MCItem :=
  [{ type := "object",
     valueObject := [("RateName", { valueString := some "DHL EXPRESS EXPORT" }),
                     ("Zone1", { valueString := some "Zone 1" })] },
   { type := "object",
     valueObject := [("Weight", { valueString := some "0.5" }),
                     ("Zone1", { valueString := some "10.00" })] }]

/-- Witness for C1 at a concrete input: on `c1Items` the segmenter emits a
section, it is a member of the output, and the theorem applies to it. -/
theorem C1_sections_have_pricing_witness :
    ∃ rc ∈ Rates.process_main_costs c1Items, rc.pricing ≠ [] := by
  refine ⟨(Rates.process_main_costs c1Items).head (by decide), by decide, ?_⟩
  exact C1_sections_have_pricing c1Items _ (by decide)

/-- Concrete zoning matrix for the C4/C6 examples: one header row naming
matrix "SVC" with two destination-zone columns, one data row with origin
zone 1 and letter E in both columns. -/
def c4Zm : List (List (String × String)) :=
  [[("MatrixName", "SVC"), ("DestinationZone1", "3"), ("DestinationZone2", "4")],
   [("OriginZone", "1"), ("DestinationZone1", "E"), ("DestinationZone2", "E")]]

/-- A matrix-coded lane matching matrix "SVC" with zone letter E. -/
def c4Row : Rates.MatrixRow :=
  { lane := 1, origin := "", destination := "", service := "SVC",
    matrix_zone := "Zone E", costs := [] }

/-- A lane with an empty matrix zone (passes through unexpanded). -/
def c4Pass : Rates.MatrixRow :=
  { lane := 2, origin := "", destination := "", service := "X",
    matrix_zone := "", costs := [] }

/-- C4: the Zoning Expander leaves a lane unchanged when its matrix zone
is empty, when the derived zone letter is empty, when no matrix name
resolves against its service, or when the matched pair list is empty;
otherwise it replaces the lane with one clone per (origin, destination)
pair with origin "Zone {o}" and destination "Zone {d}"; and the number of
output lanes is the sum over the input lanes of max(1, number of matched
pairs) — which is the count of unexpanded lanes plus the expansion sizes. -/
theorem C4_zoning_expansion_cardinality (rows : List Rates.MatrixRow)
    (zm : List (List (String × String))) (row : Rates.MatrixRow) :
    (Rates.pstrip row.matrix_zone = "" →
      Rates.expandOne (Rates.parse_zoning_matrix zm) row = [row]) ∧
    (Rates.matrix_zone_to_letter (Rates.pstrip row.matrix_zone) = "" →
      Rates.expandOne (Rates.parse_zoning_matrix zm) row = [row]) ∧
    (Rates.find_matrix_for_service (Rates.lookupNames (Rates.parse_zoning_matrix zm))
        (Rates.pstrip row.service) = none →
      Rates.expandOne (Rates.parse_zoning_matrix zm) row = [row]) ∧
    (Rates.matchedPairs (Rates.parse_zoning_matrix zm) row = [] →
      Rates.expandOne (Rates.parse_zoning_matrix zm) row = [row]) ∧
    (Rates.matchedPairs (Rates.parse_zoning_matrix zm) row ≠ [] →
      Rates.expandOne (Rates.parse_zoning_matrix zm) row =
        (Rates.matchedPairs (Rates.parse_zoning_matrix zm) row).map
          (fun p => { row with origin := "Zone " ++ p.1, destination := "Zone " ++ p.2 })) ∧
    ((Rates.expand_main_costs_lanes_by_zoning rows zm).length =
      (rows.map (fun r =>
        max 1 (Rates.matchedPairs (Rates.parse_zoning_matrix zm) r).length)).sum) := by
  refine ⟨?_, ?_, ?_, ?_, ?_, ?_⟩
  · intro hmz
    simp only [Rates.expandOne]
    rw [if_pos hmz]
  · intro hlt
    simp only [Rates.expandOne]
    by_cases hmz : Rates.pstrip row.matrix_zone = ""
    · rw [if_pos hmz]
    · rw [if_neg hmz, if_pos hlt]
  · intro hfind
    simp only [Rates.expandOne]
    by_cases hmz : Rates.pstrip row.matrix_zone = ""
    · rw [if_pos hmz]
    · rw [if_neg hmz]
      by_cases hlt : Rates.matrix_zone_to_letter (Rates.pstrip row.matrix_zone) = ""
      · rw [if_pos hlt]
      · rw [if_neg hlt, hfind]
  · intro h
    rw [Rates.expandOne_eq, if_pos h]
  · intro h
    rw [Rates.expandOne_eq, if_neg h]
    apply List.map_congr_left
    intro p hp
    obtain ⟨h1, h2⟩ := Rates.matchedPairs_good zm row p hp
    simp [Rates.cloneRow, h1, h2]
  · by_cases hrows : rows = []
    · subst hrows
      simp [Rates.expand_main_costs_lanes_by_zoning]
    · simp only [Rates.expand_main_costs_lanes_by_zoning, if_neg hrows]
      by_cases hzl : Rates.parse_zoning_matrix zm = []
      · rw [if_pos hzl, hzl]
        have hmap : ∀ r ∈ rows, max 1 (Rates.matchedPairs [] r).length = (fun _ => 1) r := by
          intro r _
          simp [Rates.matchedPairs_empty_lookup]
        rw [List.map_congr_left hmap, Rates.sum_map_one]
      · rw [if_neg hzl, Rates.renumber_length, List.length_flatMap]
        apply congrArg List.sum
        apply List.map_congr_left
        intro r _
        exact Rates.expandOne_length _ r

/-- Witness for C4 at concrete inputs: the matrix-coded lane expands into
its two clones, and the cardinality formula gives 2 + 1 lanes for the pair
(expanded lane, pass-through lane). -/
theorem C4_zoning_expansion_witness :
    Rates.expandOne (Rates.parse_zoning_matrix c4Zm) c4Row =
      (Rates.matchedPairs (Rates.parse_zoning_matrix c4Zm) c4Row).map
        (fun p => { c4Row with origin := "Zone " ++ p.1, destination := "Zone " ++ p.2 }) ∧
    (Rates.expand_main_costs_lanes_by_zoning [c4Row, c4Pass] c4Zm).length =
      ([c4Row, c4Pass].map (fun r =>
        max 1 (Rates.matchedPairs (Rates.parse_zoning_matrix c4Zm) r).length)).sum :=
  ⟨(C4_zoning_expansion_cardinality [c4Row, c4Pass] c4Zm c4Row).2.2.2.2.1 (by decide),
   (C4_zoning_expansion_cardinality [c4Row, c4Pass] c4Zm c4Row).2.2.2.2.2⟩

/-- C5 counterexample: the claim requires the longest matching name
(then lexical order) within a tier, and a result depending only on the
name set; but the code returns the first match in the set's iteration
order — with enumeration ["AB", "ABC"] and service "ABCD" it returns
"AB" although "ABC" also matches tier 1 and is longer, and the two
enumerations of the same two-element set give different results. -/
theorem C5_find_matrix_counterexample :
    Rates.find_matrix_for_service ["AB", "ABC"] "ABCD" = some "AB" ∧
    Rates.tier1 (Rates.pstrip "ABCD") "ABC" = true ∧
    ("AB" : String).length < ("ABC" : String).length ∧
    Rates.find_matrix_for_service ["ABC", "AB"] "ABCD" = some "ABC" := by
  refine ⟨?_, ?_, ?_, ?_⟩ <;> decide

/-- C5 (amended): matrix-name resolution tries the three tiers in order —
a returned name belongs to the candidate list and matches tier 1, or
matches tier 2 while no candidate matches tier 1, or matches tier 3 while
no candidate matches tiers 1 or 2; resolution fails exactly when the
service strips to empty or no candidate matches any tier.  Within a tier
the code returns the first match in the (unspecified) set iteration
order, not a longest/lexical tie-break. -/
theorem C5_find_matrix_tiers :
    (∀ (names : List String) (service mn : String),
      Rates.find_matrix_for_service names service = some mn →
      mn ∈ names ∧
      (Rates.tier1 (Rates.pstrip service) mn = true ∨
       (Rates.tier2 (Rates.pstrip service) mn = true ∧
         ∀ n ∈ names, Rates.tier1 (Rates.pstrip service) n = false) ∨
       (Rates.tier3 (Rates.pstrip service) mn = true ∧
         ∀ n ∈ names, Rates.tier1 (Rates.pstrip service) n = false ∧
           Rates.tier2 (Rates.pstrip service) n = false))) ∧
    (∀ (names : List String) (service : String),
      Rates.find_matrix_for_service names service = none ↔
      (Rates.pstrip service = "" ∨ ∀ n ∈ names,
        Rates.tier1 (Rates.pstrip service) n = false ∧
        Rates.tier2 (Rates.pstrip service) n = false ∧
        Rates.tier3 (Rates.pstrip service) n = false)) := by
  constructor
  · intro names service mn h
    simp only [Rates.find_matrix_for_service] at h
    by_cases hs : Rates.pstrip service = ""
    · rw [if_pos hs] at h
      exact Option.noConfusion h
    · rw [if_neg hs] at h
      rcases h1 : names.find? (Rates.tier1 (Rates.pstrip service)) with _ | n1
      · rcases h2 : names.find? (Rates.tier2 (Rates.pstrip service)) with _ | n2
        · simp only [h1, h2] at h
          refine ⟨List.mem_of_find?_eq_some h, Or.inr (Or.inr ⟨List.find?_some h, ?_⟩)⟩
          intro n hn
          have e1 := List.find?_eq_none.mp h1 n hn
          have e2 := List.find?_eq_none.mp h2 n hn
          exact ⟨by simpa using e1, by simpa using e2⟩
        · simp only [h1, h2, Option.some.injEq] at h
          subst h
          refine ⟨List.mem_of_find?_eq_some h2, Or.inr (Or.inl ⟨List.find?_some h2, ?_⟩)⟩
          intro n hn
          have e1 := List.find?_eq_none.mp h1 n hn
          simpa using e1
      · simp only [h1, Option.some.injEq] at h
        subst h
        exact ⟨List.mem_of_find?_eq_some h1, Or.inl (List.find?_some h1)⟩
  · intro names service
    simp only [Rates.find_matrix_for_service]
    by_cases hs : Rates.pstrip service = ""
    · rw [if_pos hs]
      simp [hs]
    · rw [if_neg hs]
      constructor
      · intro h
        rcases h1 : names.find? (Rates.tier1 (Rates.pstrip service)) with _ | n1
        · rcases h2 : names.find? (Rates.tier2 (Rates.pstrip service)) with _ | n2
          · simp only [h1, h2] at h
            refine Or.inr (fun n hn => ⟨?_, ?_, ?_⟩)
            · simpa using List.find?_eq_none.mp h1 n hn
            · simpa using List.find?_eq_none.mp h2 n hn
            · simpa using List.find?_eq_none.mp h n hn
          · simp only [h1, h2] at h
            exact Option.noConfusion h
        · simp only [h1] at h
          exact Option.noConfusion h
      · intro h
        rcases h with h | h
        · exact absurd h hs
        · have h1 : names.find? (Rates.tier1 (Rates.pstrip service)) = none :=
            List.find?_eq_none.mpr (fun n hn => by simp [(h n hn).1])
          have h2 : names.find? (Rates.tier2 (Rates.pstrip service)) = none :=
            List.find?_eq_none.mpr (fun n hn => by simp [(h n hn).2.1])
          have h3 : names.find? (Rates.tier3 (Rates.pstrip service)) = none :=
            List.find?_eq_none.mpr (fun n hn => by simp [(h n hn).2.2])
          rw [h1, h2, h3]

/-- Witness for the C5 tier theorem at a concrete input: the worldwide
third-country service resolves to the third-country zone matrix (a tier-3,
main-words match). -/
theorem C5_find_matrix_tiers_witness :
    Rates.find_matrix_for_service ["DHL EXPRESS THIRD COUNTRY ZONE MATRIX"]
        "DHL EXPRESS WORLDWIDE THIRD COUNTRY" =
      some "DHL EXPRESS THIRD COUNTRY ZONE MATRIX" ∧
    "DHL EXPRESS THIRD COUNTRY ZONE MATRIX" ∈
      ["DHL EXPRESS THIRD COUNTRY ZONE MATRIX"] := by
  have h : Rates.find_matrix_for_service ["DHL EXPRESS THIRD COUNTRY ZONE MATRIX"]
      "DHL EXPRESS WORLDWIDE THIRD COUNTRY" =
      some "DHL EXPRESS THIRD COUNTRY ZONE MATRIX" := by decide
  exact ⟨h, (C5_find_matrix_tiers.1 _ "DHL EXPRESS WORLDWIDE THIRD COUNTRY" _ h).1⟩

/-- C6 counterexample: the claim says each clone of an expanded lane has
an empty matrix_zone; but the code never clears it — expanding the
matrix-coded lane keeps "Zone E" in both clones. -/
theorem C6_clone_matrix_zone_counterexample :
    (Rates.expand_main_costs_lanes_by_zoning [c4Row] c4Zm).map
        (fun r => r.matrix_zone) = ["Zone E", "Zone E"] ∧
    ("Zone E" : String) ≠ "" := by
  constructor
  · decide
  · decide

/-- C6 (amended): every clone of an actually-expanded lane keeps the
original matrix_zone unchanged (it is not cleared), copies service, costs
and the (pre-renumbering) lane number unchanged, and gets origin
"Zone {o}" and destination "Zone {d}" from one of the matched pairs. -/
theorem C6_clone_fields (zm : List (List (String × String)))
    (row r' : Rates.MatrixRow)
    (hne : Rates.matchedPairs (Rates.parse_zoning_matrix zm) row ≠ [])
    (hr : r' ∈ Rates.expandOne (Rates.parse_zoning_matrix zm) row) :
    r'.service = row.service ∧ r'.matrix_zone = row.matrix_zone ∧
    r'.costs = row.costs ∧ r'.lane = row.lane ∧
    ∃ p ∈ Rates.matchedPairs (Rates.parse_zoning_matrix zm) row,
      r'.origin = "Zone " ++ p.1 ∧ r'.destination = "Zone " ++ p.2 := by
  rw [Rates.expandOne_eq, if_neg hne] at hr
  rcases List.mem_map.mp hr with ⟨p, hp, hpe⟩
  obtain ⟨h1, h2⟩ := Rates.matchedPairs_good zm row p hp
  subst hpe
  refine ⟨rfl, rfl, rfl, rfl, p, hp, ?_, ?_⟩
  · simp [Rates.cloneRow, h1]
  · simp [Rates.cloneRow, h2]

/-- Witness for the C6 clone-frame theorem at a concrete input: the first
clone of the expanded lane keeps service, matrix_zone, costs and lane and
carries origin "Zone 1", destination "Zone 3". -/
theorem C6_clone_fields_witness :
    ({ c4Row with origin := "Zone 1", destination := "Zone 3" } : Rates.MatrixRow).service
        = c4Row.service ∧
    ({ c4Row with origin := "Zone 1", destination := "Zone 3" } : Rates.MatrixRow).matrix_zone
        = c4Row.matrix_zone ∧
    ({ c4Row with origin := "Zone 1", destination := "Zone 3" } : Rates.MatrixRow).costs
        = c4Row.costs ∧
    ({ c4Row with origin := "Zone 1", destination := "Zone 3" } : Rates.MatrixRow).lane
        = c4Row.lane ∧
    ∃ p ∈ Rates.matchedPairs (Rates.parse_zoning_matrix c4Zm) c4Row,
      ({ c4Row with origin := "Zone 1", destination := "Zone 3" } : Rates.MatrixRow).origin
          = "Zone " ++ p.1 ∧
      ({ c4Row with origin := "Zone 1", destination := "Zone 3" } : Rates.MatrixRow).destination
          = "Zone " ++ p.2 :=
  C6_clone_fields c4Zm c4Row _ (by decide) (by decide)

/-- Concrete sections for the C2 witness: one export section with two
zones and one weight. -/
def c2Sections : List Rates.CSection :=
  [{ service_type := some "DHL EXPRESS EXPORT", cost_category := some "Documents",
     weight_unit := some "KG",
     zone_headers := [("Zone1", "Zone 1"), ("Zone2", "Zone 2")],
     pricing := [{ weight := "0.5", zone_prices := [("Zone1", "10.00"), ("Zone2", "12.00")] }] }]

/-- Concrete metadata for the C2 witness. -/
def c2Md : Rates.Metadata := { carrier := some "DHL Express France" }

/-- C2: the Matrix Builder assigns lane numbers exactly 1..N in list
order (N the number of lane rows), and the Zoning Expander maps any lane
list numbered 1..N (as the builder produces) to a list numbered 1..M in
list order — including the early-return cases (empty lane list, empty
parsed lookup) where the input numbering is preserved unchanged. -/
theorem C2_lane_numbering (mc : List Rates.CSection) (md : Rates.Metadata)
    (rows : List Rates.MatrixRow) (zm : List (List (String × String)))
    (h : rows.map (fun r => r.lane) = List.range' 1 rows.length) :
    ((Rates.build_matrix_main_costs mc md).1.map (fun r => r.lane) =
      List.range' 1 ((Rates.build_matrix_main_costs mc md).1.length)) ∧
    ((Rates.expand_main_costs_lanes_by_zoning rows zm).map (fun r => r.lane) =
      List.range' 1 ((Rates.expand_main_costs_lanes_by_zoning rows zm).length)) := by
  constructor
  · exact Rates.build_matrix_lane_numbers mc md
  · unfold Rates.expand_main_costs_lanes_by_zoning
    by_cases hrows : rows = []
    · rw [if_pos hrows]
      subst hrows
      simp
    · rw [if_neg hrows]
      by_cases hzl : Rates.parse_zoning_matrix zm = []
      · rw [if_pos hzl]
        exact h
      · rw [if_neg hzl, Rates.renumber_length]
        exact Rates.renumber_lane_numbers _

/-- Witness for C2 at concrete inputs: the one-section build yields lanes
numbered [1, 2], and expanding the lane list [c4Row, c4Pass] (numbered
1..2) against the concrete zoning matrix yields lane numbers 1..3. -/
theorem C2_lane_numbering_witness :
    ((Rates.build_matrix_main_costs c2Sections c2Md).1.map (fun r => r.lane) =
      List.range' 1 ((Rates.build_matrix_main_costs c2Sections c2Md).1.length)) ∧
    ((Rates.expand_main_costs_lanes_by_zoning [c4Row, c4Pass] c4Zm).map (fun r => r.lane) =
      List.range' 1 ((Rates.expand_main_costs_lanes_by_zoning [c4Row, c4Pass] c4Zm).length)) :=
  C2_lane_numbering c2Sections c2Md [c4Row, c4Pass] c4Zm (by decide)

/-- C7: for every input name and reference list, `_best_match_cost_type`
scores each candidate as char_ratio (difflib ratio of the lowercased
strings) plus the token bonus 0.4·|shared meaningful|/|meaningful|,
selects the candidate with the strictly highest score keeping the
first-seen candidate on ties, and returns it iff that score is at least
0.3, otherwise returns no match ("") — stated as equality with the
specification-side resolver `bestMatchSpec`, which scores every
candidate, takes the first one attaining the maximal score, and applies
the 0.3 threshold. -/
theorem C7_cost_type_scoring (orig : String) (names : List String) :
    Rates.best_match_cost_type orig names = Rates.bestMatchSpec orig names :=
  Rates.best_match_eq_spec orig names

/-- C8 counterexample: the reference list ["abc", "ABC"] contains the
exact name "ABC", and the self-candidate does score char_ratio 1.0, but
the resolver returns the earlier case-variant "abc" (same lowercase, same
score 1.4, first seen wins the tie), not the exact name. -/
theorem C8_reflexivity_counterexample :
    "ABC" ∈ ["abc", "ABC"] ∧
    Rates.best_match_cost_type "ABC" ["abc", "ABC"] = "abc" ∧
    ("abc" : String) ≠ "ABC" :=
  ⟨by decide, by decide, by decide⟩

/-- C8 (amended): for every name that is non-empty after stripping and
every reference list containing it, the self-candidate scores char_ratio
exactly 1.0, and the resolver selects a candidate with that maximal
score — the returned match equals the stripped name up to lowercasing
(an earlier case-variant in the list can win the first-seen tie, so the
exact name itself is not always returned). -/
theorem C8_reflexivity_amended (name : String) (names : List String)
    (h1 : Rates.pstrip name ≠ "") (h2 : name ∈ names) :
    (Rates.charRatio (Rates.plower (Rates.pstrip name))
        (Rates.plower (Rates.pstrip name))).toRat = 1 ∧
    Rates.plower (Rates.best_match_cost_type name names) =
      Rates.plower (Rates.pstrip name) :=
  ⟨Rates.ratioVal_self _, Rates.best_match_self_lower name names h1 h2⟩

/-- Witness for C8 (amended) at a concrete input: resolving
"Fuel Surcharge" against a list containing it returns a match whose
lowercase equals the lowercased name, with self char_ratio 1. -/
theorem C8_reflexivity_amended_witness :
    Rates.pstrip "Fuel Surcharge" ≠ "" ∧
    "Fuel Surcharge" ∈ ["Permit Fee", "Fuel Surcharge"] ∧
    ((Rates.charRatio (Rates.plower (Rates.pstrip "Fuel Surcharge"))
        (Rates.plower (Rates.pstrip "Fuel Surcharge"))).toRat = 1 ∧
      Rates.plower
          (Rates.best_match_cost_type "Fuel Surcharge" ["Permit Fee", "Fuel Surcharge"]) =
        Rates.plower (Rates.pstrip "Fuel Surcharge")) :=
  ⟨by decide, by decide,
    C8_reflexivity_amended "Fuel Surcharge" ["Permit Fee", "Fuel Surcharge"]
      (by decide) (by decide)⟩
